import Mathlib

/-!
Verification of the multipass CLI reconciliation core
(repository `todoroff/terraform-provider-multipass`).

Go strings are modelled as `List Char`; Go's `error` interface values are
modelled by the inductive `GoError` below, where constructor identity plays
the role of pointer identity for sentinel errors and `fmt.Errorf("%w: ...")`
wrapping is the `wrapped` constructor.  External subprocess invocations are
modelled by passing their outcome (exit status, stdout, stderr) as explicit
arguments.  Numeric timestamps are `Nat`.
-/

namespace Multipass

/-- Convert a Lean string literal to the `List Char` representation used
throughout the development. -/
def gs (s : String) : List Char := s.toList

/-- Go `strings.TrimSpace`, specialised to the character class
`Char.isWhitespace`: drop leading and trailing whitespace. -/
def goTrimSpace (l : List Char) : List Char :=
  ((l.dropWhile Char.isWhitespace).reverse.dropWhile Char.isWhitespace).reverse

/-- Go `strings.EqualFold` restricted to ASCII case folding, which is all the
source needs for the sentinel `"N/A"`. -/
def goEqualFold (a b : List Char) : Bool :=
  a.map Char.toLower == b.map Char.toLower

/-- `sanitizeIPs` from `internal/multipasscli` (part_004): trim each entry,
drop empty entries and the case-insensitive sentinel `"N/A"`, keep the rest
in order. -/
def sanitizeIPs (values : List (List Char)) : List (List Char) :=
  values.foldl
    (fun out v =>
      let v := goTrimSpace v
      if v = [] ∨ goEqualFold v (gs "N/A") then out else out ++ [v])
    []

/-- The same filter expressed structurally: first trim every entry, then keep
exactly the entries that are non-empty and not the sentinel. -/
def sanitizeIPsFiltered (values : List (List Char)) : List (List Char) :=
  (values.map goTrimSpace).filter
    (fun v => ¬ (v = [] ∨ goEqualFold v (gs "N/A")))

lemma sanitizeIPs_foldl_acc (values : List (List Char)) (acc : List (List Char)) :
    values.foldl
      (fun out v =>
        let v := goTrimSpace v
        if v = [] ∨ goEqualFold v (gs "N/A") then out else out ++ [v])
      acc = acc ++ sanitizeIPsFiltered values := by
  induction values generalizing acc with
  | nil => simp [sanitizeIPsFiltered]
  | cons x xs ih =>
      by_cases h : goTrimSpace x = [] ∨ goEqualFold (goTrimSpace x) (gs "N/A")
      · simp only [List.foldl_cons, sanitizeIPsFiltered, List.map_cons, List.filter_cons]
        rw [ih]
        simp [sanitizeIPsFiltered, h]
      · simp only [List.foldl_cons, sanitizeIPsFiltered, List.map_cons, List.filter_cons]
        rw [ih]
        simp [sanitizeIPsFiltered, h]

lemma sanitizeIPs_eq_filtered (values : List (List Char)) :
    sanitizeIPs values = sanitizeIPsFiltered values := by
  simpa using sanitizeIPs_foldl_acc values []

/-- C9: for every input address list, `sanitizeIPs` returns exactly the
order-preserving filter of the trimmed entries that removes empty strings and
the case-insensitive sentinel `"N/A"`; consequently no surviving entry is
empty or a sentinel, and the documented example `["10.0.0.2","N/A"]` reduces
to `["10.0.0.2"]`. -/
theorem sanitizeIPs_excludes_sentinels_preserves_order :
    (∀ values : List (List Char),
        sanitizeIPs values =
          (values.map goTrimSpace).filter
            (fun v => ¬ (v = [] ∨ goEqualFold v (gs "N/A")))) ∧
    (∀ values v, v ∈ sanitizeIPs values →
        v ≠ [] ∧ goEqualFold v (gs "N/A") = false) ∧
    sanitizeIPs [gs "10.0.0.2", gs "N/A"] = [gs "10.0.0.2"] := by
  refine ⟨fun values => sanitizeIPs_eq_filtered values, ?_, by decide⟩
  intro values v hv
  rw [sanitizeIPs_eq_filtered] at hv
  unfold sanitizeIPsFiltered at hv
  have h := List.of_mem_filter hv
  simp only [decide_eq_true_eq] at h
  push_neg at h
  exact ⟨h.1, by simpa using h.2⟩

/-- Witness for C9: the membership conjunct applied at the documented
example input. -/
theorem sanitizeIPs_excludes_sentinels_preserves_order_witness :
    gs "10.0.0.2" ≠ [] ∧ goEqualFold (gs "10.0.0.2") (gs "N/A") = false :=
  sanitizeIPs_excludes_sentinels_preserves_order.2.1
    [gs "10.0.0.2", gs "N/A"] (gs "10.0.0.2") (by decide)

/-- Go `strings.Split` with a one-character separator.  Always returns a
non-empty list of segments. -/
def splitChar (c : Char) : List Char → List (List Char)
  | [] => [[]]
  | x :: xs =>
      match splitChar c xs with
      | [] => [[x]]
      | h :: t => if x = c then [] :: h :: t else (x :: h) :: t

/-- The `parts[len(parts)-1]` access after `strings.Split` (the split result
is never empty, so the default is unreachable). -/
def lastSegment (parts : List (List Char)) : List Char :=
  parts.getLastD []

/-- Go `strings.Index` with a one-character needle, as `Option Nat` in place
of the `-1` sentinel. -/
def goIndexOf (c : Char) : List Char → Option Nat
  | [] => none
  | x :: xs => if x = c then some 0 else (goIndexOf c xs).map (· + 1)

/-- The output-trailer parsing of `client.CreateSnapshot` (part_003 lines
363-378): trim the output, fall back to the requested name on an empty line,
otherwise take the token after the last `:`; if that token has a `.` that is
not its final character, return everything after the first `.`, else fall
back to the requested name. -/
def snapshotNameFromOutput (out requested : List Char) : List Char :=
  let line := goTrimSpace out
  if line = [] then requested
  else
    let parts := splitChar ':' line
    let last := goTrimSpace (lastSegment parts)
    if last = [] then requested
    else
      match goIndexOf '.' last with
      | some dot => if dot + 1 < last.length then last.drop (dot + 1) else requested
      | none => requested

lemma splitChar_ne_nil (c : Char) (l : List Char) : splitChar c l ≠ [] := by
  cases l with
  | nil => simp [splitChar]
  | cons x xs =>
      simp only [splitChar]
      match h : splitChar c xs with
      | [] => simp
      | h' :: t => by_cases hx : x = c <;> simp [hx]

lemma splitChar_no_sep (c : Char) (l : List Char) (h : c ∉ l) :
    splitChar c l = [l] := by
  induction l with
  | nil => simp [splitChar]
  | cons x xs ih =>
      have hx : x ≠ c := fun hxc => h (hxc ▸ List.mem_cons_self x xs)
      have hxs : c ∉ xs := fun hm => h (List.mem_cons_of_mem x hm)
      simp [splitChar, ih hxs, hx]

lemma splitChar_append_sep (c : Char) (a b : List Char) (hb : c ∉ b) :
    splitChar c (a ++ c :: b) = splitChar c a ++ [b] := by
  induction a with
  | nil => simp [splitChar, splitChar_no_sep c b hb]
  | cons x xs ih =>
      simp only [List.cons_append, splitChar, List.append_eq]
      rw [ih]
      match h : splitChar c xs with
      | [] => exact absurd h (splitChar_ne_nil c xs)
      | h' :: t =>
          by_cases hx : x = c <;> simp [hx]

lemma dropWhile_of_head_false {p : Char → Bool} {x : Char} {xs : List Char}
    (hx : p x = false) : (x :: xs).dropWhile p = x :: xs := by
  simp [List.dropWhile, hx]

/-- Trimming leaves a list alone when its first and last characters are not
whitespace. -/
lemma goTrimSpace_eq_self {l : List Char}
    (hhead : ∀ x, l.head? = some x → x.isWhitespace = false)
    (hlast : ∀ x, l.getLast? = some x → x.isWhitespace = false) :
    goTrimSpace l = l := by
  cases l with
  | nil => simp [goTrimSpace]
  | cons a as =>
      have ha : a.isWhitespace = false := hhead a rfl
      unfold goTrimSpace
      rw [dropWhile_of_head_false ha]
      have hrev : (a :: as).reverse ≠ [] := by simp
      match hr : (a :: as).reverse with
      | [] => exact absurd hr hrev
      | b :: bs =>
          have hb : (a :: as).getLast? = some b := by
            rw [List.getLast?_eq_head?_reverse, hr]; rfl
          rw [dropWhile_of_head_false (hlast b hb), ← hr, List.reverse_reverse]

lemma goIndexOf_append_first {l r : List Char}
    (hl : ∀ x ∈ l, ¬ (x = '.')) :
    goIndexOf '.' (l ++ '.' :: r) = some l.length := by
  induction l with
  | nil => simp [goIndexOf]
  | cons x xs ih =>
      have hx : ¬ (x = '.') := hl x (List.mem_cons_self x xs)
      simp only [List.cons_append, goIndexOf, hx, if_false, List.length_cons,
        List.append_eq]
      rw [ih (fun y hy => hl y (List.mem_cons_of_mem x hy))]
      rfl

lemma getLastD_append_singleton (l : List (List Char)) (b d : List Char) :
    (l ++ [b]).getLastD d = b := by
  induction l generalizing d with
  | nil => rfl
  | cons x xs ih => simp only [List.cons_append]; rw [List.getLastD_cons]; exact ih x

lemma drop_append_length (a b : List Char) : (a ++ b).drop a.length = b := by
  induction a with
  | nil => rfl
  | cons x xs ih => simp only [List.cons_append, List.length_cons, List.drop_succ_cons]; exact ih

lemma getLast?_append_ne_nil (a : List Char) {b : List Char} (hb : b ≠ []) :
    (a ++ b).getLast? = b.getLast? := by
  induction a with
  | nil => rfl
  | cons x xs ih =>
      rw [List.cons_append, List.getLast?_cons, ih]
      cases b with
      | nil => exact absurd rfl hb
      | cons y ys => simp [List.getLast?_cons]

lemma goTrimSpace_cons_space (l : List Char) :
    goTrimSpace (' ' :: l) = goTrimSpace l := by
  have : (' ' :: l).dropWhile Char.isWhitespace = l.dropWhile Char.isWhitespace := by
    simp [List.dropWhile]
  simp [goTrimSpace, this]

/-- C8: the snapshot-creation trailer parser.  (1) An empty output line falls
back to the caller-requested name.  (2) For an output line of the documented
shape `"Snapshot taken: <instance>.<snapshot>"` (instance free of `:`, `.`
and whitespace; snapshot non-empty, free of `:` and whitespace) the parser
returns exactly the `<snapshot>` token: the token after the last colon, split
at the first dot.  (3) The documented example
`"Snapshot taken: db.pre-upgrade"` yields `"pre-upgrade"`. -/
theorem snapshotNameFromOutput_spec :
    (∀ requested, snapshotNameFromOutput [] requested = requested) ∧
    (∀ inst snap requested : List Char,
        snap ≠ [] →
        (∀ x ∈ inst, x ≠ ':' ∧ x ≠ '.' ∧ x.isWhitespace = false) →
        (∀ x ∈ snap, x ≠ ':' ∧ x.isWhitespace = false) →
        snapshotNameFromOutput (gs "Snapshot taken: " ++ inst ++ '.' :: snap)
          requested = snap) ∧
    snapshotNameFromOutput (gs "Snapshot taken: db.pre-upgrade") (gs "fallback") =
      gs "pre-upgrade" := by
  refine ⟨fun requested => by simp [snapshotNameFromOutput, goTrimSpace], ?_, by decide⟩
  intro inst snap requested hsnap hinst hsnapc
  have hout :
      gs "Snapshot taken: " ++ inst ++ '.' :: snap =
        gs "Snapshot taken" ++ ':' :: (' ' :: (inst ++ '.' :: snap)) := by
    have : gs "Snapshot taken: " = gs "Snapshot taken" ++ ':' :: [' '] := by decide
    simp [this]
  -- the whole line is already trimmed
  have hlastmem : ∀ x, snap.getLast? = some x → x.isWhitespace = false := by
    intro x hx
    have : x ∈ snap := by
      have := @List.mem_getLast?_eq_getLast _ snap x hx
      rcases this with ⟨h, rfl⟩
      exact List.getLast_mem h
    exact (hsnapc x this).2
  have htrimline :
      goTrimSpace (gs "Snapshot taken: " ++ inst ++ '.' :: snap) =
        gs "Snapshot taken: " ++ inst ++ '.' :: snap := by
    apply goTrimSpace_eq_self
    · intro x hx
      have : (gs "Snapshot taken: " ++ inst ++ '.' :: snap).head? = some 'S' := by
        have h1 : gs "Snapshot taken: " = 'S' :: gs "napshot taken: " := by decide
        simp [h1]
      rw [this] at hx
      cases hx
      decide
    · intro x hx
      rw [List.append_assoc, getLast?_append_ne_nil _ (by simp),
        getLast?_append_ne_nil _ (by simp [hsnap]),
        show ('.' :: snap) = ['.'] ++ snap from rfl,
        getLast?_append_ne_nil _ hsnap] at hx
      exact hlastmem x hx
  have hnosep : ':' ∉ ' ' :: (inst ++ '.' :: snap) := by
    intro hmem
    rcases List.mem_cons.mp hmem with h | h
    · exact absurd h.symm (by decide)
    · rcases List.mem_append.mp h with h | h
      · exact ((hinst _ h).1 rfl).elim
      · rcases List.mem_cons.mp h with h | h
        · exact absurd h.symm (by decide)
        · exact ((hsnapc _ h).1 rfl).elim
  have hsplit :
      splitChar ':' (gs "Snapshot taken: " ++ inst ++ '.' :: snap) =
        splitChar ':' (gs "Snapshot taken") ++ [' ' :: (inst ++ '.' :: snap)] := by
    rw [hout]
    exact splitChar_append_sep ':' _ _ hnosep
  have hlastseg :
      lastSegment (splitChar ':' (gs "Snapshot taken: " ++ inst ++ '.' :: snap)) =
        ' ' :: (inst ++ '.' :: snap) := by
    rw [hsplit]; exact getLastD_append_singleton _ _ _
  have htrimlast :
      goTrimSpace (' ' :: (inst ++ '.' :: snap)) = inst ++ '.' :: snap := by
    rw [goTrimSpace_cons_space]
    apply goTrimSpace_eq_self
    · intro x hx
      cases inst with
      | nil =>
          simp only [List.nil_append, List.head?_cons] at hx
          cases hx; decide
      | cons c cs =>
          simp only [List.cons_append, List.head?_cons, Option.some.injEq] at hx
          subst hx
          exact (hinst c (List.mem_cons_self c cs)).2.2
    · intro x hx
      rw [getLast?_append_ne_nil _ (by simp),
        show ('.' :: snap) = ['.'] ++ snap from rfl,
        getLast?_append_ne_nil _ hsnap] at hx
      exact hlastmem x hx
  have hidx : goIndexOf '.' (inst ++ '.' :: snap) = some inst.length :=
    goIndexOf_append_first (fun x hx => (hinst x hx).2.1)
  have hlen : inst.length + 1 < (inst ++ '.' :: snap).length := by
    simp only [List.length_append, List.length_cons]
    have : 0 < snap.length := List.length_pos.mpr hsnap
    omega
  have hdrop : (inst ++ '.' :: snap).drop (inst.length + 1) = snap := by
    have h1 : inst ++ '.' :: snap = (inst ++ ['.']) ++ snap := by simp
    have h2 : inst.length + 1 = (inst ++ ['.']).length := by simp
    rw [h1, h2, drop_append_length]
  have hne0 : ¬ (gs "Snapshot taken: " ++ inst ++ '.' :: snap = []) := by simp
  have hne2 : ¬ (inst ++ '.' :: snap = []) := by simp
  simp only [snapshotNameFromOutput]
  rw [htrimline, if_neg hne0, hlastseg, htrimlast, if_neg hne2, hidx]
  simp only [if_pos hlen]
  exact hdrop

/-- Witness for C8: the general extraction law applied at the documented
instance/snapshot pair. -/
theorem snapshotNameFromOutput_spec_witness :
    snapshotNameFromOutput (gs "Snapshot taken: " ++ gs "db" ++ '.' :: gs "pre-upgrade")
      (gs "fallback") = gs "pre-upgrade" :=
  snapshotNameFromOutput_spec.2.1 (gs "db") (gs "pre-upgrade") (gs "fallback")
    (by decide) (by decide) (by decide)

/-! ### Mount diffing (part_009: `diffMounts`, `mountConfigMap`) -/

/-- A mount block from the instance resource model, after `ValueString` /
`ValueBool` extraction (null and unknown both read back as the zero value). -/
structure MountCfg where
  hostPath : List Char
  instancePath : List Char
  readOnly : Bool
deriving DecidableEq

/-- The identity key `host + "|" + instance` used by `mountConfigMap`. -/
def mountKey (m : MountCfg) : List Char := m.hostPath ++ '|' :: m.instancePath

/-- Go map lookup, on the association-list representation of a map. -/
def assocFind {α : Type} (k : List Char) : List (List Char × α) → Option α
  | [] => none
  | (k', v) :: rest => if k' = k then some v else assocFind k rest

/-- Go map assignment: overwrite the entry for `k` if present, else add it. -/
def assocPut {α : Type} (k : List Char) (v : α) :
    List (List Char × α) → List (List Char × α)
  | [] => [(k, v)]
  | (k', v') :: rest =>
      if k' = k then (k, v) :: rest else (k', v') :: assocPut k v rest

/-- `mountConfigMap` (part_009 lines 572-584): index the mount configs by
their `host|instance` key, skipping entries with an empty host or instance
path. -/
def mountConfigMap (configs : List MountCfg) : List (List Char × MountCfg) :=
  configs.foldl
    (fun result c =>
      if c.hostPath = [] ∨ c.instancePath = [] then result
      else assocPut (mountKey c) c result)
    []

/-- `diffMounts` (part_009 lines 547-570): returns `(toAdd, toRemove)`.  A
key only in `state` is removed; a key in both with a changed read-only flag
is removed and re-added; a key only in `plan` is added. -/
def diffMounts (plan state : List MountCfg) : List MountCfg × List MountCfg :=
  let planMap := mountConfigMap plan
  let stateMap := mountConfigMap state
  let firstPass :=
    stateMap.foldl
      (fun (acc : List MountCfg × List MountCfg) kv =>
        match assocFind kv.1 planMap with
        | none => (acc.1, acc.2 ++ [kv.2])
        | some desired =>
            if kv.2.readOnly ≠ desired.readOnly
            then (acc.1 ++ [desired], acc.2 ++ [kv.2])
            else acc)
      ([], [])
  let toAdd :=
    planMap.foldl
      (fun acc kv =>
        if (assocFind kv.1 stateMap).isNone then acc ++ [kv.2] else acc)
      firstPass.1
  (toAdd, firstPass.2)

/-- What the first pass of `diffMounts` contributes to `toAdd`. -/
def addPick (planMap : List (List Char × MountCfg)) (kv : List Char × MountCfg) :
    Option MountCfg :=
  match assocFind kv.1 planMap with
  | none => none
  | some desired => if kv.2.readOnly ≠ desired.readOnly then some desired else none

/-- What the first pass of `diffMounts` contributes to `toRemove`. -/
def removePick (planMap : List (List Char × MountCfg)) (kv : List Char × MountCfg) :
    Option MountCfg :=
  match assocFind kv.1 planMap with
  | none => some kv.2
  | some desired => if kv.2.readOnly ≠ desired.readOnly then some kv.2 else none

/-- What the second pass of `diffMounts` contributes to `toAdd`. -/
def newPick (stateMap : List (List Char × MountCfg)) (kv : List Char × MountCfg) :
    Option MountCfg :=
  if (assocFind kv.1 stateMap).isNone then some kv.2 else none

lemma firstPassStep_eq (planMap : List (List Char × MountCfg))
    (acc : List MountCfg × List MountCfg) (kv : List Char × MountCfg) :
    (match assocFind kv.1 planMap with
      | none => (acc.1, acc.2 ++ [kv.2])
      | some desired =>
          if kv.2.readOnly ≠ desired.readOnly
          then (acc.1 ++ [desired], acc.2 ++ [kv.2])
          else acc)
    = (acc.1 ++ (addPick planMap kv).toList,
       acc.2 ++ (removePick planMap kv).toList) := by
  unfold addPick removePick
  cases assocFind kv.1 planMap with
  | none => simp
  | some desired => by_cases hro : kv.2.readOnly = desired.readOnly <;> simp [hro]

lemma diffMounts_firstPass (planMap : List (List Char × MountCfg))
    (l : List (List Char × MountCfg)) (a1 a2 : List MountCfg) :
    l.foldl
      (fun (acc : List MountCfg × List MountCfg) kv =>
        match assocFind kv.1 planMap with
        | none => (acc.1, acc.2 ++ [kv.2])
        | some desired =>
            if kv.2.readOnly ≠ desired.readOnly
            then (acc.1 ++ [desired], acc.2 ++ [kv.2])
            else acc)
      (a1, a2) =
      (a1 ++ l.filterMap (addPick planMap), a2 ++ l.filterMap (removePick planMap)) := by
  induction l generalizing a1 a2 with
  | nil => simp
  | cons kv rest ih =>
      rw [List.foldl_cons, firstPassStep_eq planMap (a1, a2) kv, ih]
      cases hadd : addPick planMap kv <;> cases hrem : removePick planMap kv <;>
        simp [List.filterMap_cons, hadd, hrem]

lemma diffMounts_secondPass (stateMap : List (List Char × MountCfg))
    (l : List (List Char × MountCfg)) (a : List MountCfg) :
    l.foldl
      (fun acc kv =>
        if (assocFind kv.1 stateMap).isNone then acc ++ [kv.2] else acc)
      a = a ++ l.filterMap (newPick stateMap) := by
  induction l generalizing a with
  | nil => simp
  | cons kv rest ih =>
      simp only [List.foldl_cons, List.filterMap_cons]
      by_cases hfind : (assocFind kv.1 stateMap).isNone
      · rw [if_pos hfind, ih]
        simp [newPick, hfind]
      · rw [if_neg hfind, ih]
        simp [newPick, hfind]

lemma diffMounts_eq (plan state : List MountCfg) :
    diffMounts plan state =
      ((mountConfigMap state).filterMap (addPick (mountConfigMap plan)) ++
        (mountConfigMap plan).filterMap (newPick (mountConfigMap state)),
       (mountConfigMap state).filterMap (removePick (mountConfigMap plan))) := by
  unfold diffMounts
  dsimp only
  rw [diffMounts_firstPass, diffMounts_secondPass]
  simp

lemma assocFind_put_same {α : Type} (k : List Char) (v : α)
    (m : List (List Char × α)) : assocFind k (assocPut k v m) = some v := by
  induction m with
  | nil => simp [assocPut, assocFind]
  | cons kv rest ih =>
      by_cases h : kv.1 = k
      · simp [assocPut, assocFind, h]
      · simp [assocPut, assocFind, h, ih]

lemma assocFind_put_other {α : Type} (k k' : List Char) (v : α)
    (m : List (List Char × α)) (h : k ≠ k') :
    assocFind k' (assocPut k v m) = assocFind k' m := by
  induction m with
  | nil => simp [assocPut, assocFind, h]
  | cons kv rest ih =>
      by_cases hk : kv.1 = k
      · simp [assocPut, assocFind, hk, h]
      · by_cases hk' : kv.1 = k' <;>
          simp [assocPut, assocFind, hk, hk', ih, Ne.symm h]

lemma mem_assocPut {α : Type} {kv : List Char × α} {k : List Char} {v : α}
    {m : List (List Char × α)} (h : kv ∈ assocPut k v m) :
    kv = (k, v) ∨ kv ∈ m := by
  induction m with
  | nil => simpa [assocPut] using h
  | cons kv' rest ih =>
      by_cases hk : kv'.1 = k
      · rw [assocPut, if_pos hk] at h
        rcases List.mem_cons.mp h with h | h
        · exact Or.inl h
        · exact Or.inr (List.mem_cons_of_mem _ h)
      · rw [assocPut, if_neg hk] at h
        rcases List.mem_cons.mp h with h | h
        · exact Or.inr (h ▸ List.mem_cons_self kv' rest)
        · rcases ih h with h | h
          · exact Or.inl h
          · exact Or.inr (List.mem_cons_of_mem _ h)

lemma mountConfigMap_fold_entries (configs : List MountCfg)
    (acc : List (List Char × MountCfg)) :
    ∀ kv ∈ configs.foldl
      (fun result c =>
        if c.hostPath = [] ∨ c.instancePath = [] then result
        else assocPut (mountKey c) c result) acc,
      (kv.1 = mountKey kv.2 ∧ kv.2 ∈ configs) ∨ kv ∈ acc := by
  induction configs generalizing acc with
  | nil => intro kv hkv; exact Or.inr hkv
  | cons c rest ih =>
      intro kv hkv
      simp only [List.foldl_cons] at hkv
      rcases ih _ kv hkv with ⟨hk, hm⟩ | hacc
      · exact Or.inl ⟨hk, List.mem_cons_of_mem c hm⟩
      · by_cases hval : c.hostPath = [] ∨ c.instancePath = []
        · rw [if_pos hval] at hacc
          exact Or.inr hacc
        · rw [if_neg hval] at hacc
          rcases mem_assocPut hacc with h | h
          · exact Or.inl ⟨by rw [h], by rw [h]; exact List.mem_cons_self c rest⟩
          · exact Or.inr h

/-- Every entry of a mount-config map pairs a config from the input list with
its own key. -/
lemma mountConfigMap_entries (configs : List MountCfg) :
    ∀ kv ∈ mountConfigMap configs, kv.1 = mountKey kv.2 ∧ kv.2 ∈ configs := by
  intro kv hkv
  rcases mountConfigMap_fold_entries configs [] kv hkv with h | h
  · exact h
  · simp at h

lemma mountConfigMap_fold_no_key (configs : List MountCfg)
    (acc : List (List Char × MountCfg)) (k : List Char)
    (h : ∀ c ∈ configs, mountKey c ≠ k) :
    assocFind k (configs.foldl
      (fun result c =>
        if c.hostPath = [] ∨ c.instancePath = [] then result
        else assocPut (mountKey c) c result) acc) = assocFind k acc := by
  induction configs generalizing acc with
  | nil => rfl
  | cons c rest ih =>
      simp only [List.foldl_cons]
      rw [ih _ (fun c' hc' => h c' (List.mem_cons_of_mem c hc'))]
      by_cases hval : c.hostPath = [] ∨ c.instancePath = []
      · rw [if_pos hval]
      · rw [if_neg hval,
          assocFind_put_other _ _ _ _ (h c (List.mem_cons_self c rest))]

/-- A key absent from the config list is absent from the map. -/
lemma mountConfigMap_find_none (configs : List MountCfg) (k : List Char)
    (h : ∀ c ∈ configs, mountKey c ≠ k) :
    assocFind k (mountConfigMap configs) = none :=
  mountConfigMap_fold_no_key configs [] k h

/-- With non-empty paths and pairwise-distinct keys, every config is found in
the map under its own key. -/
lemma mountConfigMap_find_self (configs : List MountCfg)
    (hval : ∀ m ∈ configs, m.hostPath ≠ [] ∧ m.instancePath ≠ [])
    (hkeys : (configs.map mountKey).Nodup) :
    ∀ m ∈ configs, assocFind (mountKey m) (mountConfigMap configs) = some m := by
  suffices h : ∀ (acc : List (List Char × MountCfg)), ∀ m ∈ configs,
      assocFind (mountKey m) (configs.foldl
        (fun result c =>
          if c.hostPath = [] ∨ c.instancePath = [] then result
          else assocPut (mountKey c) c result) acc) = some m by
    intro m hm; exact h [] m hm
  induction configs with
  | nil => intro acc m hm; simp at hm
  | cons c rest ih =>
      intro acc m hm
      simp only [List.foldl_cons]
      have hvalc : ¬ (c.hostPath = [] ∨ c.instancePath = []) := by
        have := hval c (List.mem_cons_self c rest)
        push_neg
        exact this
      rcases List.mem_cons.mp hm with rfl | hmrest
      · rw [if_neg hvalc]
        rw [mountConfigMap_fold_no_key rest _ (mountKey m)
          (fun c' hc' hkey => by
            have : mountKey m ∉ rest.map mountKey :=
              (List.nodup_cons.mp (by simpa using hkeys)).1
            exact this (hkey ▸ List.mem_map_of_mem mountKey hc'))]
        exact assocFind_put_same _ _ _
      · exact ih
          (fun m' hm' => hval m' (List.mem_cons_of_mem c hm'))
          (List.nodup_cons.mp (by simpa using hkeys)).2
          _ m hmrest

/-- From distinct keys, equal keys force equal configs. -/
lemma eq_of_mountKey_eq {configs : List MountCfg}
    (hkeys : (configs.map mountKey).Nodup) {x y : MountCfg}
    (hx : x ∈ configs) (hy : y ∈ configs) (hkey : mountKey x = mountKey y) :
    x = y :=
  List.inj_on_of_nodup_map hkeys hx hy hkey

lemma mem_of_assocFind {α : Type} {k : List Char} {v : α} :
    ∀ {m : List (List Char × α)}, assocFind k m = some v → (k, v) ∈ m := by
  intro m h
  induction m with
  | nil => simp [assocFind] at h
  | cons kv rest ih =>
      by_cases hk : kv.1 = k
      · rw [assocFind, if_pos hk] at h
        cases h
        cases kv
        simp_all
      · rw [assocFind, if_neg hk] at h
        exact List.mem_cons_of_mem _ (ih h)

/-- C7: mount diffing is a set difference over the `(host, instance)` key.
For mount sets (non-empty paths, pairwise-distinct keys): a pair present only
in the current set goes to `toRemove`; a pair present only in the desired set
goes to `toAdd`; a pair present in both with a changed read-only flag goes to
both; a pair present in both with the same read-only flag contributes to
neither. -/
theorem diffMounts_is_key_set_difference
    (plan state : List MountCfg)
    (hpv : ∀ m ∈ plan, m.hostPath ≠ [] ∧ m.instancePath ≠ [])
    (hsv : ∀ m ∈ state, m.hostPath ≠ [] ∧ m.instancePath ≠ [])
    (hpk : (plan.map mountKey).Nodup)
    (hsk : (state.map mountKey).Nodup) :
    (∀ cur ∈ state, (∀ d ∈ plan, mountKey d ≠ mountKey cur) →
        cur ∈ (diffMounts plan state).2) ∧
    (∀ des ∈ plan, (∀ c ∈ state, mountKey c ≠ mountKey des) →
        des ∈ (diffMounts plan state).1) ∧
    (∀ cur ∈ state, ∀ des ∈ plan, mountKey cur = mountKey des →
        cur.readOnly ≠ des.readOnly →
        cur ∈ (diffMounts plan state).2 ∧ des ∈ (diffMounts plan state).1) ∧
    (∀ cur ∈ state, ∀ des ∈ plan, mountKey cur = mountKey des →
        cur.readOnly = des.readOnly →
        (∀ x ∈ (diffMounts plan state).2, mountKey x ≠ mountKey cur) ∧
        (∀ x ∈ (diffMounts plan state).1, mountKey x ≠ mountKey cur)) := by
  have hsfind := mountConfigMap_find_self state hsv hsk
  have hpfind := mountConfigMap_find_self plan hpv hpk
  have hsmem : ∀ cur ∈ state, (mountKey cur, cur) ∈ mountConfigMap state :=
    fun cur hcur => mem_of_assocFind (hsfind cur hcur)
  have hpmem : ∀ des ∈ plan, (mountKey des, des) ∈ mountConfigMap plan :=
    fun des hdes => mem_of_assocFind (hpfind des hdes)
  rw [diffMounts_eq]
  refine ⟨?_, ?_, ?_, ?_⟩
  · -- only in current ⇒ removed
    intro cur hcur honly
    simp only [List.mem_filterMap]
    refine ⟨(mountKey cur, cur), hsmem cur hcur, ?_⟩
    unfold removePick
    rw [mountConfigMap_find_none plan _ (fun d hd => honly d hd)]
  · -- only in desired ⇒ added
    intro des hdes honly
    simp only [List.mem_append, List.mem_filterMap]
    right
    refine ⟨(mountKey des, des), hpmem des hdes, ?_⟩
    unfold newPick
    rw [mountConfigMap_find_none state _ (fun c hc => honly c hc)]
    simp
  · -- in both, read-only flag changed ⇒ removed and re-added
    intro cur hcur des hdes hkey hro
    constructor
    · simp only [List.mem_filterMap]
      refine ⟨(mountKey cur, cur), hsmem cur hcur, ?_⟩
      unfold removePick
      rw [hkey, hpfind des hdes]
      simp [hro]
    · simp only [List.mem_append, List.mem_filterMap]
      left
      refine ⟨(mountKey cur, cur), hsmem cur hcur, ?_⟩
      unfold addPick
      rw [hkey, hpfind des hdes]
      simp [hro]
  · -- in both, read-only flag unchanged ⇒ in neither output
    intro cur hcur des hdes hkey hro
    constructor
    · intro x hx hxkey
      simp only [List.mem_filterMap] at hx
      obtain ⟨kv, hkv, hpick⟩ := hx
      obtain ⟨hkv1, hkv2⟩ := mountConfigMap_entries state kv hkv
      have hxkv : kv.2 = x := by
        unfold removePick at hpick
        cases hfind : assocFind kv.1 (mountConfigMap plan) with
        | none => rw [hfind] at hpick; cases hpick; rfl
        | some desired =>
            rw [hfind] at hpick
            by_cases hro2 : kv.2.readOnly = desired.readOnly
            · simp [hro2] at hpick
            · simp [hro2] at hpick; rw [hpick]
      have hcurkv : kv.2 = cur :=
        eq_of_mountKey_eq hsk hkv2 hcur (by rw [hxkv, hxkey])
      unfold removePick at hpick
      rw [hkv1, hcurkv, hkey, hpfind des hdes] at hpick
      rw [hro] at hpick
      simp at hpick
    · intro x hx hxkey
      simp only [List.mem_append, List.mem_filterMap] at hx
      rcases hx with ⟨kv, hkv, hpick⟩ | ⟨kv, hkv, hpick⟩
      · -- contribution from the changed-flag pass
        obtain ⟨hkv1, hkv2⟩ := mountConfigMap_entries state kv hkv
        unfold addPick at hpick
        cases hfind : assocFind kv.1 (mountConfigMap plan) with
        | none => rw [hfind] at hpick; cases hpick
        | some desired =>
            rw [hfind] at hpick
            by_cases hro2 : kv.2.readOnly = desired.readOnly
            · simp [hro2] at hpick
            · simp [hro2] at hpick
              -- hpick : desired = x; trace keys back to cur and des
              obtain ⟨hd1, hd2⟩ := mountConfigMap_entries plan _ (mem_of_assocFind hfind)
              have hxdes : x = des :=
                eq_of_mountKey_eq hpk (hpick ▸ hd2) hdes (by rw [hxkey, hkey])
              have hkvcur : kv.2 = cur := by
                apply eq_of_mountKey_eq hsk hkv2 hcur
                rw [← hkv1, hd1, hpick, hxkey]
              exact hro2 (by rw [hkvcur, hpick, hxdes]; exact hro)
      · -- contribution from the plan-only pass
        obtain ⟨hkv1, hkv2⟩ := mountConfigMap_entries plan kv hkv
        unfold newPick at hpick
        by_cases hfind : (assocFind kv.1 (mountConfigMap state)).isNone
        · rw [if_pos hfind] at hpick
          cases hpick
          have hxdes : kv.2 = des :=
            eq_of_mountKey_eq hpk hkv2 hdes (by rw [hxkey, hkey])
          rw [hkv1, hxdes, ← hkey, hsfind cur hcur] at hfind
          simp at hfind
        · rw [if_neg hfind] at hpick
          cases hpick

/-- Witness for C7: the spec example, desired `{(A,X,ro=false)}` against
current `{(A,X,ro=true)}`: the pair lands in both `toRemove` and `toAdd`. -/
theorem diffMounts_is_key_set_difference_witness :
    MountCfg.mk (gs "A") (gs "X") true ∈
      (diffMounts [MountCfg.mk (gs "A") (gs "X") false]
        [MountCfg.mk (gs "A") (gs "X") true]).2 ∧
    MountCfg.mk (gs "A") (gs "X") false ∈
      (diffMounts [MountCfg.mk (gs "A") (gs "X") false]
        [MountCfg.mk (gs "A") (gs "X") true]).1 :=
  (diffMounts_is_key_set_difference
      [MountCfg.mk (gs "A") (gs "X") false]
      [MountCfg.mk (gs "A") (gs "X") true]
      (by decide) (by decide) (by decide) (by decide)).2.2.1
    (MountCfg.mk (gs "A") (gs "X") true) (by decide)
    (MountCfg.mk (gs "A") (gs "X") false) (by decide)
    (by decide) (by decide)

/-! ### Go errors, the command runner, and the info parser (part_003,
part_004, errors.go) -/

/-- Go `error` values, as constructed by this code base.  `errNotFound` is
the package sentinel `ErrNotFound`; `wrapped` is `fmt.Errorf` with a `%w`
verb; `cliError` is `*CLIError` (whose `Unwrap` yields the process error,
never the sentinel); `basic` is `fmt.Errorf`/`errors.New` without

wrapping.  Equality of values models Go's `==` on error interface values:
the sentinel is one fixed allocation, and every `fmt.Errorf` result is a
fresh one. -/
inductive GoError where
  | errNotFound : GoError
  | wrapped (inner : GoError) (msg : List Char) : GoError
  | cliError (command stdoutS stderrS errMsg : List Char) : GoError
  | basic (msg : List Char) : GoError
deriving DecidableEq

/-- `errors.Is`: direct equality or equality after unwrapping. -/
def errorsIs (e t : GoError) : Bool :=
  e = t ||
    match e with
    | .wrapped inner _ => errorsIs inner t
    | _ => false

/-- Go `strings.Contains`. -/
def containsSub (hay needle : List Char) : Bool :=
  needle.isPrefixOf hay ||
    match hay with
    | [] => false
    | _ :: rest => containsSub rest needle

/-- Go `strings.Join(args, " ")`. -/
def joinArgs : List (List Char) → List Char
  | [] => []
  | [a] => a
  | a :: rest => a ++ ' ' :: joinArgs rest

/-- `client.run` (part_003 lines 414-445), with the subprocess outcome passed
in: on success the raw stdout; on a deadline hit a timeout error; on nonzero
exit with a "does not exist"/"not found" stderr a wrapped `ErrNotFound`;
otherwise a `*CLIError` carrying command, both trimmed streams, and the
process error text. -/
def clientRun (args : List (List Char)) (exitOk timedOut : Bool)
    (stdoutB stderrB errText : List Char) : Except GoError (List Char) :=
  if exitOk then .ok stdoutB
  else if timedOut then
    .error (.basic (gs "multipass command timed out: " ++ joinArgs args))
  else
    let stdoutS := goTrimSpace stdoutB
    let stderrS := goTrimSpace stderrB
    if containsSub stderrS (gs "does not exist") ∨
        containsSub stderrS (gs "not found") then
      .error (.wrapped .errNotFound stderrS)
    else
      .error (.cliError (joinArgs args) stdoutS stderrS errText)

/-- `strconv.Atoi`: an optional sign followed by at least one decimal
digit. -/
def goAtoi (l : List Char) : Option Int :=
  let digits : List Char → Option Nat := fun ds =>
    if ds = [] then none
    else if ds.all Char.isDigit then
      some (ds.foldl (fun acc d => acc * 10 + (d.toNat - '0'.toNat)) 0)
    else none
  match l with
  | '-' :: rest => (digits rest).map (fun n => -(n : Int))
  | '+' :: rest => (digits rest).map (fun n => (n : Int))
  | _ => (digits l).map (fun n => (n : Int))

/-- `parseUintString` (part_004 lines 225-230): reject the empty string, then
`strconv.ParseUint` (no sign allowed). -/
def parseUintString (l : List Char) : Option Nat :=
  if l = [] then none
  else if l.all Char.isDigit then
    some (l.foldl (fun acc d => acc * 10 + (d.toNat - '0'.toNat)) 0)
  else none

/-- `models.Mount`. -/
structure Mount where
  hostPath : List Char
  instancePath : List Char
  readOnly : Bool
deriving DecidableEq

/-- `models.Instance` as populated by the parsers in part_004. -/
structure Instance where
  name : List Char
  state : List Char
  release : List Char
  imageRelease : List Char
  imageHash : List Char
  ipv4 : List (List Char)
  cpuCount : Int
  diskTotal : Nat
  diskUsed : Nat
  memoryTotal : Nat
  memoryUsed : Nat
  load : List Int
  snapshotCount : Int
  mounts : List Mount
  lastUpdated : Nat
deriving DecidableEq

/-- A `disks` map value of the `info` payload (stringified numbers). -/
structure DiskEntry where
  total : List Char
  used : List Char
deriving DecidableEq

/-- The `memory` object of the `info` payload. -/
structure MemoryEntry where
  total : Nat
  used : Nat
deriving DecidableEq

/-- A `mounts` map value of the `info` payload, keyed by target path. -/
structure MountEntry where
  sourcePath : List Char
  readOnly : Bool
deriving DecidableEq

/-- One entry of the name-keyed `info` map (`infoEntry`, part_004).  The
`load` samples are modelled as integers; nothing verified here inspects
them. -/
structure InfoEntry where
  cpuCount : List Char
  disks : List (List Char × DiskEntry)
  imageHash : List Char
  imageRelease : List Char
  ipv4 : List (List Char)
  load : List Int
  memory : MemoryEntry
  mounts : List (List Char × MountEntry)
  release : List Char
  snapshotCount : List Char
  state : List Char
deriving DecidableEq

/-- The decoded `multipass info --format json` payload (`infoResponse`),
with the dynamic-keyed JSON map as an association list. -/
structure InfoResponse where
  info : List (List Char × InfoEntry)
deriving DecidableEq

/-- Byte-wise (strict) string order, as Go's `<` on strings. -/
def ltStr : List Char → List Char → Bool
  | [], [] => false
  | [], _ :: _ => true
  | _ :: _, [] => false
  | a :: as, b :: bs => if a < b then true else if b < a then false else ltStr as bs

/-- Insertion into a list sorted by `le`. -/
def insertSorted {α : Type} (le : α → α → Bool) (x : α) : List α → List α
  | [] => [x]
  | y :: ys => if le x y then x :: y :: ys else y :: insertSorted le x ys

/-- Sorting with a boolean comparator (the model of Go's `sort.Slice`). -/
def sortBy {α : Type} (le : α → α → Bool) (l : List α) : List α :=
  l.foldr (insertSorted le) []

/-- The sibling order of the instance mounts list: by instance path. -/
def mountPathLe (a b : Mount) : Bool := ! ltStr b.instancePath a.instancePath

/-- `infoResponse.toModel` (part_004 lines 76-128): look the requested name
up in the map (a missing name is a plain `fmt.Errorf`); parse the stringified
counters leniently defaulting to zero; take the first disk entry; flatten the
mounts map sorted by instance path. -/
def infoToModel (r : InfoResponse) (name : List Char) : Except GoError Instance :=
  match assocFind name r.info with
  | none =>
      .error (.basic (gs "instance \"" ++ name ++ gs "\" missing from info payload"))
  | some entry =>
      let cpuc := (goAtoi entry.cpuCount).getD 0
      let snapshots := (goAtoi entry.snapshotCount).getD 0
      let diskTotal := match entry.disks with
        | [] => 0
        | (_, disk) :: _ => (parseUintString disk.total).getD 0
      let diskUsed := match entry.disks with
        | [] => 0
        | (_, disk) :: _ => (parseUintString disk.used).getD 0
      let mounts := sortBy mountPathLe
        (entry.mounts.map (fun tm => Mount.mk tm.2.sourcePath tm.1 tm.2.readOnly))
      .ok
        { name := name
          state := entry.state
          release := entry.release
          imageRelease := entry.imageRelease
          imageHash := entry.imageHash
          ipv4 := sanitizeIPs entry.ipv4
          cpuCount := cpuc
          diskTotal := diskTotal
          diskUsed := diskUsed
          memoryTotal := entry.memory.total
          memoryUsed := entry.memory.used
          load := entry.load
          snapshotCount := snapshots
          mounts := mounts
          lastUpdated := 0 }

/-- `client.GetInstance` (part_003 lines 120-135), with the decoded `info`
invocation outcome passed in: a run/decode error that `errors.Is`-matches
`ErrNotFound` is rewritten to the bare sentinel; any other error — including
the `toModel` error for a name missing from the payload — propagates
unchanged. -/
def getInstance (runRes : Except GoError InfoResponse) (name : List Char) :
    Except GoError Instance :=
  match runRes with
  | .error e => if errorsIs e .errNotFound then .error .errNotFound else .error e
  | .ok payload => infoToModel payload name

/-- C1 counterexample: for the query outcome `info = {}` (a successful query
whose payload lacks the requested name `"primary"`), `GetInstance` returns
the plain `fmt.Errorf` "missing from info payload" error, which is not the
`NotFound` condition — `errors.Is(err, ErrNotFound)` is false and the error
is not the sentinel. -/
theorem getInstance_missing_name_not_notfound_counterexample :
    getInstance (.ok (InfoResponse.mk [])) (gs "primary") =
      .error (.basic (gs "instance \"primary\" missing from info payload")) ∧
    errorsIs (.basic (gs "instance \"primary\" missing from info payload"))
      .errNotFound = false ∧
    (GoError.basic (gs "instance \"primary\" missing from info payload")) ≠
      GoError.errNotFound := by
  exact ⟨rfl, by decide, by decide⟩

/-- C1 as amended: for every info payload whose name-keyed map does not
contain the requested name, `GetInstance` returns the generic
"missing from info payload" error — a plain `fmt.Errorf`, distinct from the
`NotFound` condition (which only arises when the external tool itself
reports the resource absent) and distinct from a JSON-decode failure. -/
theorem getInstance_missing_name_generic_error
    (payload : InfoResponse) (name : List Char)
    (hmissing : assocFind name payload.info = none) :
    getInstance (.ok payload) name =
      .error (.basic (gs "instance \"" ++ name ++ gs "\" missing from info payload")) ∧
    ∀ e, getInstance (.ok payload) name = .error e →
      errorsIs e .errNotFound = false := by
  have hred : getInstance (.ok payload) name = infoToModel payload name := rfl
  constructor
  · rw [hred]
    unfold infoToModel
    rw [hmissing]
  · intro e he
    rw [hred] at he
    unfold infoToModel at he
    rw [hmissing] at he
    cases he
    rfl

/-- Witness for the amended C1 theorem, at a payload holding only another
instance's record. -/
theorem getInstance_missing_name_generic_error_witness :
    getInstance
        (.ok (InfoResponse.mk
          [(gs "other",
            InfoEntry.mk (gs "1") [] [] [] [] [] (MemoryEntry.mk 0 0) [] [] (gs "0")
              (gs "Running"))]))
        (gs "primary") =
      .error (.basic (gs "instance \"primary\" missing from info payload")) :=
  (getInstance_missing_name_generic_error _ (gs "primary") (by decide)).1

/-- `client.DeleteAlias` (part_003 lines 326-335), with the `unalias`
invocation outcome passed in: empty names are rejected locally; a run error
propagates unchanged (in particular, still wrapped). -/
def deleteAlias (name : List Char) (runRes : Except GoError (List Char)) :
    Option GoError :=
  if name = [] then some (.basic (gs "alias name is required"))
  else
    match runRes with
    | .error e => some e
    | .ok _ => none

/-- `aliasResource.Delete` (part_006 lines 574-588): record a "Failed to
delete alias" diagnostic unless the returned error is nil or `==` the
`ErrNotFound` sentinel (a pointer comparison, not `errors.Is`). -/
def aliasResourceDeleteDiagnostics (name : List Char)
    (runRes : Except GoError (List Char)) : List (List Char) :=
  match deleteAlias name runRes with
  | none => []
  | some err =>
      if err ≠ GoError.errNotFound then [gs "Failed to delete alias"] else []

/-- C2: deleting an alias that no longer exists externally.  The tool exits
nonzero with stderr `"Alias dev does not exist"`; `client.run` wraps
`ErrNotFound` with `fmt.Errorf("%w: ...")`, so the returned error
`errors.Is`-matches the sentinel but is not `==` to it — and
`aliasResource.Delete`, comparing with `!=`, records an error diagnostic.
The delete therefore does not complete cleanly, contradicting the claim: the
`err != ErrNotFound` guard in the source shows the idempotent-success intent,
but it can never fire on the wrapped error `run` actually produces. -/
theorem aliasDelete_absent_alias_records_diagnostic :
    clientRun [gs "unalias", gs "dev"] false false []
        (gs "Alias dev does not exist") (gs "exit status 1") =
      .error (.wrapped .errNotFound (gs "Alias dev does not exist")) ∧
    errorsIs (.wrapped .errNotFound (gs "Alias dev does not exist"))
      .errNotFound = true ∧
    aliasResourceDeleteDiagnostics (gs "dev")
        (clientRun [gs "unalias", gs "dev"] false false []
          (gs "Alias dev does not exist") (gs "exit status 1")) =
      [gs "Failed to delete alias"] := by
  exact ⟨rfl, by decide, by decide⟩

/-! ### The read-through instance cache (part_003 `ListInstances`,
`DeleteInstance`, `invalidateInstances`; cache.go) -/

/-- `cacheTTL` (part_003 line 60), in seconds. -/
def cacheTTL : Nat := 3

/-- The instance slot of the client's cache: `*cacheEntry[[]models.Instance]`
as an optional `(value, expires)` pair (a nil pointer is `none`). -/
structure ClientState where
  instanceCache : Option (List Instance × Nat)
deriving DecidableEq

/-- `cacheEntry.valid` (cache.go lines 10-12): non-nil and `now` strictly
before the expiry instant. -/
def cacheValid : Option (List Instance × Nat) → Nat → Bool
  | none, _ => false
  | some (_, expires), now => now < expires

/-- `cloneInstances` (part_003 lines 459-463): allocate a fresh top-level
slice and copy the elements across. -/
def cloneInstances (l : List Instance) : List Instance :=
  l.foldr List.cons []

lemma cloneInstances_eq (l : List Instance) : cloneInstances l = l := by
  induction l with
  | nil => rfl
  | cons x xs ih =>
      unfold cloneInstances at ih ⊢
      rw [List.foldr_cons, ih]

/-- The query path of `ListInstances`: run `multipass list --format json`
(outcome passed in, already through `listResponse.toModel`), store a fresh
cache entry on success, and return a copy. -/
def listInstancesQuery (st : ClientState) (now : Nat)
    (query : Except GoError (List Instance)) :
    Except GoError (List Instance) × ClientState × Bool :=
  match query with
  | .error e => (.error e, st, true)
  | .ok instances =>
      (.ok (cloneInstances instances),
        { st with instanceCache := some (instances, now + cacheTTL) }, true)

/-- `client.ListInstances` (part_003 lines 98-118).  The third component
records whether the underlying external query was performed. -/
def listInstances (st : ClientState) (refresh : Bool) (now : Nat)
    (query : Except GoError (List Instance)) :
    Except GoError (List Instance) × ClientState × Bool :=
  match st.instanceCache with
  | some (v, expires) =>
      if refresh = false ∧ now < expires
      then (.ok (cloneInstances v), st, false)
      else listInstancesQuery st now query
  | none => listInstancesQuery st now query

/-- `client.DeleteInstance` (part_003 lines 217-228), with the outcomes of
the `delete` and `purge` invocations passed in: any error returns before
`invalidateInstances` runs; only the fully successful path clears the
instance cache slot. -/
def deleteInstance (st : ClientState) (purge : Bool)
    (deleteRes purgeRes : Option GoError) : Option GoError × ClientState :=
  match deleteRes with
  | some e => (some e, st)
  | none =>
      if purge then
        match purgeRes with
        | some e => (some e, st)
        | none => (none, { st with instanceCache := none })
      else (none, { st with instanceCache := none })

lemma listInstances_cache_hit {st : ClientState} {v : List Instance}
    {expires now : Nat} {q : Except GoError (List Instance)}
    (hcache : st.instanceCache = some (v, expires)) (hvalid : now < expires) :
    listInstances st false now q = (.ok (cloneInstances v), st, false) := by
  unfold listInstances
  rw [hcache]
  simp [hvalid]

lemma listInstances_cache_none {st : ClientState} {now : Nat}
    {q : Except GoError (List Instance)} (hcache : st.instanceCache = none) :
    listInstances st false now q = listInstancesQuery st now q := by
  unfold listInstances
  rw [hcache]

lemma listInstances_cache_expired {st : ClientState} {v : List Instance}
    {expires now : Nat} {q : Except GoError (List Instance)}
    (hcache : st.instanceCache = some (v, expires)) (hexp : ¬ now < expires) :
    listInstances st false now q = listInstancesQuery st now q := by
  unfold listInstances
  rw [hcache]
  simp [hexp]

lemma listInstances_refresh (st : ClientState) (now : Nat)
    (q : Except GoError (List Instance)) :
    listInstances st true now q = listInstancesQuery st now q := by
  unfold listInstances
  cases hcache : st.instanceCache with
  | some ve => obtain ⟨v, expires⟩ := ve; simp
  | none => rfl

lemma listInstancesQuery_ok (st : ClientState) (now : Nat) (v : List Instance) :
    listInstancesQuery st now (.ok v) =
      (.ok (cloneInstances v), ClientState.mk (some (v, now + cacheTTL)), true) := rfl

lemma listInstancesQuery_did (st : ClientState) (now : Nat)
    (q : Except GoError (List Instance)) :
    (listInstancesQuery st now q).2.2 = true := by
  cases q <;> rfl

/-- C4: (1) two `ListInstances` calls with `refresh = false`, the second
within the TTL window opened by the first and with the underlying query
succeeding when performed, run the underlying external query at most once —
and when the first call queried, the second is served from the stored cache
slot; (2) a call with `refresh = true` always performs the underlying query,
whatever the cache holds. -/
theorem listInstances_ttl_at_most_one_query
    (st : ClientState) (t1 t2 : Nat) (q1 q2 : Except GoError (List Instance))
    (v1 : List Instance) (hq1 : q1 = .ok v1) (hwindow : t2 < t1 + cacheTTL) :
    (¬ ((listInstances st false t1 q1).2.2 = true ∧
        (listInstances (listInstances st false t1 q1).2.1 false t2 q2).2.2 = true)) ∧
    ((listInstances st false t1 q1).2.2 = true →
        (listInstances (listInstances st false t1 q1).2.1 false t2 q2).1 =
          .ok (cloneInstances v1) ∧
        (listInstances (listInstances st false t1 q1).2.1 false t2 q2).2.2 = false) ∧
    (∀ (st' : ClientState) (now : Nat) (q : Except GoError (List Instance)),
        (listInstances st' true now q).2.2 = true) := by
  subst hq1
  have hmiss :
      listInstances st false t1 (.ok v1) = listInstancesQuery st t1 (.ok v1) →
      (listInstances (listInstances st false t1 (.ok v1)).2.1 false t2 q2).1 =
          .ok (cloneInstances v1) ∧
      (listInstances (listInstances st false t1 (.ok v1)).2.1 false t2 q2).2.2 =
          false := by
    intro hq
    rw [hq, listInstancesQuery_ok]
    rw [@listInstances_cache_hit (ClientState.mk (some (v1, t1 + cacheTTL)))
      v1 (t1 + cacheTTL) t2 q2 rfl hwindow]
    exact ⟨rfl, rfl⟩
  refine ⟨?_, ?_, ?_⟩
  · rintro ⟨h1, h2⟩
    cases hcache : st.instanceCache with
    | some ve =>
        obtain ⟨v, expires⟩ := ve
        by_cases hvalid : t1 < expires
        · rw [listInstances_cache_hit hcache hvalid] at h1
          simp at h1
        · exact absurd ((hmiss (listInstances_cache_expired hcache hvalid)).2)
            (by rw [h2]; simp)
    | none =>
        exact absurd ((hmiss (listInstances_cache_none hcache)).2)
          (by rw [h2]; simp)
  · intro h1
    cases hcache : st.instanceCache with
    | some ve =>
        obtain ⟨v, expires⟩ := ve
        by_cases hvalid : t1 < expires
        · rw [listInstances_cache_hit hcache hvalid] at h1
          simp at h1
        · exact hmiss (listInstances_cache_expired hcache hvalid)
    | none => exact hmiss (listInstances_cache_none hcache)
  · intro st' now q
    rw [listInstances_refresh]
    exact listInstancesQuery_did st' now q

/-- Witness for C4: an initially empty cache, calls at times 0 and 2 with a
successful query. -/
theorem listInstances_ttl_at_most_one_query_witness :
    ¬ ((listInstances (ClientState.mk none) false 0 (.ok [])).2.2 = true ∧
      (listInstances (listInstances (ClientState.mk none) false 0 (.ok [])).2.1
        false 2 (.ok [])).2.2 = true) :=
  (listInstances_ttl_at_most_one_query (ClientState.mk none) 0 2
    (.ok []) (.ok []) [] rfl (by decide)).1

/-- C10: `DeleteInstance` invalidates the instance cache slot only on full
success.  (1) If the `delete` step or the `purge` step fails, the state (and
so the instance cache slot) is unchanged; (2) on success the slot is cleared;
(3) after a failed delete, a `ListInstances` within the TTL of a previously
valid entry is still served the pre-delete cached list without querying. -/
theorem deleteInstance_invalidates_only_on_success
    (st : ClientState) (purge : Bool) (deleteRes purgeRes : Option GoError) :
    ((deleteInstance st purge deleteRes purgeRes).1.isSome →
        (deleteInstance st purge deleteRes purgeRes).2 = st) ∧
    ((deleteInstance st purge deleteRes purgeRes).1 = none →
        (deleteInstance st purge deleteRes purgeRes).2.instanceCache = none) ∧
    (∀ (v : List Instance) (expires t : Nat) (e : GoError)
        (q : Except GoError (List Instance)),
        st.instanceCache = some (v, expires) → t < expires →
        listInstances (deleteInstance st purge (some e) purgeRes).2 false t q =
          (.ok (cloneInstances v), st, false)) := by
  refine ⟨?_, ?_, ?_⟩
  · intro h
    cases deleteRes with
    | some e => rfl
    | none =>
        cases purge with
        | false => simp [deleteInstance] at h
        | true =>
            cases purgeRes with
            | some e => rfl
            | none => simp [deleteInstance] at h
  · intro h
    cases deleteRes with
    | some e => simp [deleteInstance] at h
    | none =>
        cases purge with
        | false => rfl
        | true =>
            cases purgeRes with
            | some e => simp [deleteInstance] at h
            | none => rfl
  · intro v expires t e q hcache hvalid
    have hstate : (deleteInstance st purge (some e) purgeRes).2 = st := rfl
    rw [hstate]
    exact listInstances_cache_hit hcache hvalid

/-- Witness for C10: a failed delete leaves a valid cached list observable. -/
theorem deleteInstance_invalidates_only_on_success_witness :
    listInstances
        (deleteInstance (ClientState.mk (some ([], 5))) true
          (some (GoError.basic (gs "boom"))) none).2 false 2 (.ok []) =
      (.ok (cloneInstances []), ClientState.mk (some ([], 5)), false) :=
  (deleteInstance_invalidates_only_on_success (ClientState.mk (some ([], 5)))
      true (some (GoError.basic (gs "boom"))) none).2.2
    [] 5 2 (GoError.basic (gs "boom")) (.ok []) rfl (by decide)

/-! ### Slice aliasing of `cloneInstances` (part_003 lines 459-463)

To observe Go slice aliasing, slice headers are modelled as references into
heaps: an instance's `IPv4` (and `Mounts`) field is an index into a heap of
backing arrays, and the cached `[]models.Instance` value is an index into a
heap of instance arrays.  `copy(out, in)` copies the element structs — and
with them the nested slice headers — into a freshly allocated top-level
array. -/

/-- The runtime representation of a `models.Instance` struct value: scalar
fields plus slice headers (references) for the nested `IPv4` and `Mounts`
slices.  Scalar fields other than the name are omitted; they are copied by
value and play no role in aliasing. -/
structure InstanceRepr where
  name : List Char
  ipv4Ref : Nat
  mountsRef : Nat
deriving DecidableEq

/-- Allocate-and-copy of `cloneInstances`: `out := make(..., len(in));
copy(out, in)` — a fresh top-level array whose elements are struct copies of
the source elements, appended to the instance-array heap.  Returns the new
heap and the new slice's reference. -/
def heapCloneInstances (iheap : List (List InstanceRepr)) (r : Nat) :
    List (List InstanceRepr) × Nat :=
  (iheap ++ [iheap.getD r []], iheap.length)

/-- A caller assigning `out[i] = inst` through a slice reference. -/
def writeInstanceAt (iheap : List (List InstanceRepr)) (r i : Nat)
    (inst : InstanceRepr) : List (List InstanceRepr) :=
  iheap.set r ((iheap.getD r []).set i inst)

/-- A caller assigning `insts[i].IPv4[j] = v`: a write through the nested
string-array reference `p`. -/
def writeIPAt (sheap : List (List (List Char))) (p j : Nat) (v : List Char) :
    List (List (List Char)) :=
  sheap.set p ((sheap.getD p []).set j v)

/-- The value an observer sees when reading the instance list behind
reference `r` in full: each element's name together with the contents of its
IPv4 backing array (mounts behave identically). -/
def deepReadInstances (iheap : List (List InstanceRepr))
    (sheap : List (List (List Char))) (r : Nat) :
    List (List Char × List (List Char)) :=
  (iheap.getD r []).map (fun inst => (inst.name, sheap.getD inst.ipv4Ref []))

lemma getD_append_left {α : Type} (l₁ l₂ : List α) (r : Nat) (d : α)
    (h : r < l₁.length) : (l₁ ++ l₂).getD r d = l₁.getD r d := by
  induction l₁ generalizing r with
  | nil => simp at h
  | cons x xs ih =>
      cases r with
      | zero => rfl
      | succ n =>
          simp only [List.length_cons, Nat.succ_lt_succ_iff] at h
          simpa using ih n h

lemma getD_append_self {α : Type} (l : List α) (a d : α) :
    (l ++ [a]).getD l.length d = a := by
  induction l with
  | nil => rfl
  | cons x xs ih =>
      simp only [List.cons_append, List.length_cons, List.getD_cons_succ]
      exact ih

lemma getD_set_ne {α : Type} (l : List α) (i j : Nat) (v : α) (d : α)
    (h : i ≠ j) : (l.set i v).getD j d = l.getD j d := by
  induction l generalizing i j with
  | nil => simp [List.set]
  | cons x xs ih =>
      cases i with
      | zero =>
          cases j with
          | zero => exact absurd rfl h
          | succ m => rfl
      | succ n =>
          cases j with
          | zero => rfl
          | succ m =>
              simp only [List.set, List.getD_cons_succ]
              exact ih n m (fun hnm => h (by rw [hnm]))

/-- C5 counterexample: the cache holds one instance `"primary"` whose IPv4
backing array is `["10.0.0.2"]`.  `cloneInstances` allocates a fresh
top-level array (reference 1) whose single element is a struct copy sharing
IPv4 reference 0.  Writing `out[0].IPv4[0] = "mutated"` through the returned
value changes what the cache-owned reference 0 observes — the nested data of
the returned value is not a defensive copy. -/
theorem cloneInstances_nested_mutation_visible_counterexample :
    (heapCloneInstances [[InstanceRepr.mk (gs "primary") 0 0]] 0).2 = 1 ∧
    ((heapCloneInstances [[InstanceRepr.mk (gs "primary") 0 0]] 0).1.getD 1 []).getD 0
        (InstanceRepr.mk [] 0 0) = InstanceRepr.mk (gs "primary") 0 0 ∧
    deepReadInstances [[InstanceRepr.mk (gs "primary") 0 0]] [[gs "10.0.0.2"]] 0 =
      [(gs "primary", [gs "10.0.0.2"])] ∧
    deepReadInstances (heapCloneInstances [[InstanceRepr.mk (gs "primary") 0 0]] 0).1
        (writeIPAt [[gs "10.0.0.2"]]
          (((heapCloneInstances [[InstanceRepr.mk (gs "primary") 0 0]] 0).1.getD 1 []).getD 0
            (InstanceRepr.mk [] 0 0)).ipv4Ref
          0 (gs "mutated"))
        0 =
      [(gs "primary", [gs "mutated"])] := by
  exact ⟨rfl, rfl, rfl, rfl⟩

/-- C5 as amended: `cloneInstances` is a top-level defensive copy only.  For
every heap and cached slice reference: (1) the clone allocates a fresh
top-level array (a new reference holding equal contents); (2) replacing an
element of the returned slice leaves the value observed through the cached
reference unchanged; (3) the element structs — and so the nested IPv4/mount
slice headers — are shared: under every subsequent state of the nested
backing store, the returned and the cached reference observe the same deep
value, so a nested mutation through the returned value is visible in the
cache-owned stored value. -/
theorem cloneInstances_top_level_copy_only
    (iheap : List (List InstanceRepr)) (sheap : List (List (List Char)))
    (r : Nat) (hr : r < iheap.length) :
    (heapCloneInstances iheap r).2 ≠ r ∧
    (heapCloneInstances iheap r).1.getD (heapCloneInstances iheap r).2 [] =
      iheap.getD r [] ∧
    (∀ (i : Nat) (inst : InstanceRepr),
        deepReadInstances
          (writeInstanceAt (heapCloneInstances iheap r).1
            (heapCloneInstances iheap r).2 i inst)
          sheap r =
        deepReadInstances iheap sheap r) ∧
    (∀ sheap' : List (List (List Char)),
        deepReadInstances (heapCloneInstances iheap r).1 sheap'
            (heapCloneInstances iheap r).2 =
          deepReadInstances (heapCloneInstances iheap r).1 sheap' r) := by
  have hne : iheap.length ≠ r := Nat.ne_of_gt hr
  have hnewcell :
      (heapCloneInstances iheap r).1.getD (heapCloneInstances iheap r).2 [] =
        iheap.getD r [] := getD_append_self iheap (iheap.getD r []) []
  have holdcell :
      (heapCloneInstances iheap r).1.getD r [] = iheap.getD r [] :=
    getD_append_left iheap [iheap.getD r []] r [] hr
  refine ⟨hne, hnewcell, ?_, ?_⟩
  · intro i inst
    unfold deepReadInstances writeInstanceAt
    rw [getD_set_ne _ _ _ _ _
      (show (heapCloneInstances iheap r).2 ≠ r from hne), holdcell]
  · intro sheap'
    unfold deepReadInstances
    rw [hnewcell, holdcell]

/-- Witness for the amended C5 theorem: the fresh-reference and
equal-contents conjuncts at the one-instance cache. -/
theorem cloneInstances_top_level_copy_only_witness :
    (heapCloneInstances [[InstanceRepr.mk (gs "primary") 0 0]] 0).2 ≠ 0 ∧
    (heapCloneInstances [[InstanceRepr.mk (gs "primary") 0 0]] 0).1.getD
        (heapCloneInstances [[InstanceRepr.mk (gs "primary") 0 0]] 0).2 [] =
      [InstanceRepr.mk (gs "primary") 0 0] :=
  ⟨(cloneInstances_top_level_copy_only [[InstanceRepr.mk (gs "primary") 0 0]]
      [] 0 (by decide)).1,
   ((cloneInstances_top_level_copy_only [[InstanceRepr.mk (gs "primary") 0 0]]
      [] 0 (by decide)).2.1).trans rfl⟩

/-! ### Tar extraction and the path-traversal guard
(config.go: `sanitizeExtractPath`, `writeDirectoryFromTar`) -/

/-- Join path elements with `/`. -/
def joinWithSlash : List (List Char) → List Char
  | [] => []
  | [e] => e
  | e :: rest => e ++ '/' :: joinWithSlash rest

/-- `filepath.Clean` for slash-separated paths: split on `/`, drop empty and
`.` elements, resolve `..` lexically (popping a previous element, or keeping
the `..` when there is nothing to pop and the path is relative), and rebuild;
an empty result collapses to `/` (rooted) or `.`. -/
def goClean (p : List Char) : List Char :=
  let rooted := p.head? = some '/'
  let elems := splitChar '/' p
  let stack := elems.foldl
    (fun (stack : List (List Char)) e =>
      if e = [] ∨ e = ['.'] then stack
      else if e = ['.', '.'] then
        match stack.reverse with
        | [] => if rooted then [] else [e]
        | top :: _ =>
            if top = ['.', '.'] then stack ++ [e]
            else stack.dropLast
      else stack ++ [e])
    []
  let body := joinWithSlash stack
  if body = [] then (if rooted then ['/'] else ['.'])
  else if rooted then '/' :: body else body

/-- `filepath.Join` for two elements: drop empty parts, join the rest with
`/`, and `Clean` the result (empty when both parts are empty). -/
def goJoin (a b : List Char) : List Char :=
  if a = [] ∧ b = [] then []
  else if a = [] then goClean b
  else if b = [] then goClean a
  else goClean (a ++ '/' :: b)

/-- `sanitizeExtractPath` (config.go lines 583-593): clean the entry name,
reject any cleaned name still containing `..`, join it under the destination
root, and reject the result unless the destination root is a string prefix
of it. -/
def sanitizeExtractPath (destRoot name : List Char) :
    Except (List Char) (List Char) :=
  let cleanName := goClean name
  if containsSub cleanName (gs "..") then
    .error (gs "archive entry contains parent directory traversal")
  else
    let target := goJoin destRoot cleanName
    if ¬ (destRoot.isPrefixOf target) then
      .error (gs "archive entry escapes destination")
    else
      .ok target

/-- A tar header's type flag. -/
inductive TarType where
  | dir : TarType
  | reg : TarType
  | other : TarType
deriving DecidableEq

/-- A tar archive entry as seen by the extraction loop. -/
structure TarHeader where
  name : List Char
  typeflag : TarType
deriving DecidableEq

/-- `fileDownloadResource.writeDirectoryFromTar` (config.go lines 533-578),
reduced to its write/abort behaviour: process entries in order; an entry
failing `sanitizeExtractPath` (or of unsupported type) aborts with an error
diagnostic, leaving only the writes already performed; otherwise the entry's
target path is written (directory creation or file extraction) and the loop
continues.  Returns the written target paths and the error, if any. -/
def writeDirectoryFromTar (destRoot : List Char) :
    List TarHeader → List (List Char) → List (List Char) × Option (List Char)
  | [], written => (written, none)
  | hdr :: rest, written =>
      match sanitizeExtractPath destRoot hdr.name with
      | .error e => (written, some e)
      | .ok target =>
          match hdr.typeflag with
          | .dir => writeDirectoryFromTar destRoot rest (written ++ [target])
          | .reg => writeDirectoryFromTar destRoot rest (written ++ [target])
          | .other => (written, some (gs "unsupported archive entry type"))

lemma sanitizeExtractPath_ok_prefix {destRoot name t : List Char}
    (h : sanitizeExtractPath destRoot name = .ok t) :
    destRoot.isPrefixOf t = true := by
  unfold sanitizeExtractPath at h
  by_cases hdots : containsSub (goClean name) (gs "..")
  · rw [if_pos hdots] at h; cases h
  · rw [if_neg hdots] at h
    by_cases hpref : destRoot.isPrefixOf (goJoin destRoot (goClean name))
    · rw [if_neg (by simp [hpref])] at h
      cases h
      exact hpref
    · rw [if_pos (by simp [hpref])] at h
      cases h

lemma sanitizeExtractPath_error_of_escape {destRoot name : List Char}
    (h : ¬ destRoot.isPrefixOf (goJoin destRoot (goClean name)) = true) :
    ∃ e, sanitizeExtractPath destRoot name = .error e := by
  unfold sanitizeExtractPath
  by_cases hdots : containsSub (goClean name) (gs "..")
  · exact ⟨_, by rw [if_pos hdots]⟩
  · exact ⟨_, by rw [if_neg hdots, if_pos (by simp [h])]⟩

lemma writeDirectoryFromTar_all_under_root (destRoot : List Char) :
    ∀ (entries : List TarHeader) (written : List (List Char)),
      ∀ p ∈ (writeDirectoryFromTar destRoot entries written).1,
        p ∈ written ∨ destRoot.isPrefixOf p = true := by
  intro entries
  induction entries with
  | nil => intro written p hp; exact Or.inl hp
  | cons hdr rest ih =>
      intro written p hp
      unfold writeDirectoryFromTar at hp
      cases hsan : sanitizeExtractPath destRoot hdr.name with
      | error e => rw [hsan] at hp; exact Or.inl hp
      | ok target =>
          rw [hsan] at hp
          have htp := sanitizeExtractPath_ok_prefix hsan
          cases hflag : hdr.typeflag with
          | dir =>
              rw [hflag] at hp
              rcases ih (written ++ [target]) p hp with hmem | hpref
              · rcases List.mem_append.mp hmem with hmem | hmem
                · exact Or.inl hmem
                · rcases List.mem_singleton.mp hmem with rfl
                  exact Or.inr htp
              · exact Or.inr hpref
          | reg =>
              rw [hflag] at hp
              rcases ih (written ++ [target]) p hp with hmem | hpref
              · rcases List.mem_append.mp hmem with hmem | hmem
                · exact Or.inl hmem
                · rcases List.mem_singleton.mp hmem with rfl
                  exact Or.inr htp
              · exact Or.inr hpref
          | other => rw [hflag] at hp; exact Or.inl hp

lemma writeDirectoryFromTar_pre (destRoot : List Char) :
    ∀ (pre rest : List TarHeader) (written : List (List Char)),
      (∀ h ∈ pre, (∃ t, sanitizeExtractPath destRoot h.name = .ok t) ∧
          h.typeflag ≠ TarType.other) →
      writeDirectoryFromTar destRoot (pre ++ rest) written =
        writeDirectoryFromTar destRoot rest
          (written ++ pre.filterMap
            (fun h => (sanitizeExtractPath destRoot h.name).toOption)) := by
  intro pre
  induction pre with
  | nil => intro rest written _; simp
  | cons hdr tl ih =>
      intro rest written hpre
      obtain ⟨⟨t, hok⟩, hflag⟩ := hpre hdr (List.mem_cons_self hdr tl)
      have htl : ∀ h ∈ tl, (∃ t, sanitizeExtractPath destRoot h.name = .ok t) ∧
          h.typeflag ≠ TarType.other :=
        fun h hh => hpre h (List.mem_cons_of_mem hdr hh)
      simp only [List.cons_append]
      conv_lhs => rw [writeDirectoryFromTar]
      rw [hok]
      cases hf : hdr.typeflag with
      | dir =>
          simp only []
          rw [ih rest (written ++ [t]) htl, List.append_assoc]
          simp [List.filterMap_cons, hok, Except.toOption]
      | reg =>
          simp only []
          rw [ih rest (written ++ [t]) htl, List.append_assoc]
          simp [List.filterMap_cons, hok, Except.toOption]
      | other => exact absurd hf hflag

/-- C3: the path-traversal guard of directory extraction.  (1) Every path
ever written by `writeDirectoryFromTar` lies under the destination root
(the root is a string prefix of it).  (2) For every archive containing an
entry whose normalized path would escape the destination root, extraction
stops at that entry with an error: the writes performed are exactly the
targets of the well-formed entries before it — nothing is written for the
rejected entry or after it, and an archive whose first entry escapes writes
nothing at all. -/
theorem writeDirectoryFromTar_rejects_traversal :
    (∀ (destRoot : List Char) (entries : List TarHeader),
        ∀ p ∈ (writeDirectoryFromTar destRoot entries []).1,
          destRoot.isPrefixOf p = true) ∧
    (∀ (destRoot : List Char) (pre : List TarHeader) (bad : TarHeader)
        (post : List TarHeader),
        ¬ destRoot.isPrefixOf (goJoin destRoot (goClean bad.name)) = true →
        (∀ h ∈ pre, (∃ t, sanitizeExtractPath destRoot h.name = .ok t) ∧
            h.typeflag ≠ TarType.other) →
        (writeDirectoryFromTar destRoot (pre ++ bad :: post) []).2.isSome = true ∧
        (writeDirectoryFromTar destRoot (pre ++ bad :: post) []).1 =
          pre.filterMap
            (fun h => (sanitizeExtractPath destRoot h.name).toOption)) := by
  constructor
  · intro destRoot entries p hp
    rcases writeDirectoryFromTar_all_under_root destRoot entries [] p hp with hmem | hpref
    · simp at hmem
    · exact hpref
  · intro destRoot pre bad post hescape hpre
    obtain ⟨e, herr⟩ := sanitizeExtractPath_error_of_escape hescape
    rw [writeDirectoryFromTar_pre destRoot pre (bad :: post) [] hpre]
    unfold writeDirectoryFromTar
    rw [herr]
    simp

/-- Witness for C3: the documented `"../../etc/passwd"` entry as the first
archive entry under destination root `/tmp/dest/` — extraction errors and
writes nothing. -/
theorem writeDirectoryFromTar_rejects_traversal_witness :
    (writeDirectoryFromTar (gs "/tmp/dest/")
        ([] ++ TarHeader.mk (gs "../../etc/passwd") TarType.reg :: [])
        []).2.isSome = true ∧
    (writeDirectoryFromTar (gs "/tmp/dest/")
        ([] ++ TarHeader.mk (gs "../../etc/passwd") TarType.reg :: [])
        []).1 = [] :=
  writeDirectoryFromTar_rejects_traversal.2 (gs "/tmp/dest/") []
    (TarHeader.mk (gs "../../etc/passwd") TarType.reg) []
    (by decide) (by intro h hh; simp at hh)

/-! ### Directory hashing (file_shared.go: `hashDirectory`, `walkDirectory`)

A directory tree is a list of named entries, each a file (with contents) or a
subdirectory.  `walkDirectory` feeds, for each entry of a directory in
name-sorted order, the entry's root-relative path and then — for files — the
hex content digest into a running hash.  The inner per-file digest
(`hashFile`, hex-encoded SHA-256) is modelled by an abstract function `h`
whose outputs have the fixed length 64; the outer running hash is an abstract
function applied to the concatenated byte stream (collision resistance is
idealised as injectivity).  Recursion is bounded by explicit fuel standing
for the finite depth of a real filesystem; `os.ReadDir`'s enumeration is an
arbitrary entry order which the walk sorts, as the source does. -/

/-- A filesystem node: a regular file with contents, or a directory with
named entries. -/
inductive FsNode where
  | file (content : List Char) : FsNode
  | dir (entries : List (List Char × FsNode)) : FsNode

/-- `filepath.Rel(root, path)` for the accumulated walk: the entry's path
relative to the walk root. -/
def relJoin (current name : List Char) : List Char :=
  if current = [] then name else current ++ '/' :: name

/-- The comparator of `sort.Slice(entries, names[i] < names[j])`, as a
non-strict order usable for sorting. -/
def entryLe (a b : List Char × FsNode) : Prop := ltStr b.1 a.1 = false

instance : DecidableRel entryLe := fun a b => instDecidableEqBool (ltStr b.1 a.1) false

/-- Sorting a directory's entries by name (the model of the source's
`sort.Slice`; any correct sort produces the same list once names are
distinct). -/
def sortEntries (l : List (List Char × FsNode)) : List (List Char × FsNode) :=
  List.insertionSort entryLe l

/-- One directory level of `walkDirectory`, over the already-sorted entries:
write the entry's relative path, then its file content hash or the recursive
walk of the subdirectory (performed by `walkSub`). -/
def walkSorted (h : List Char → List Char)
    (walkSub : List Char → List (List Char × FsNode) → Option (List Char))
    (current : List Char) : List (List Char × FsNode) → Option (List Char)
  | [] => some []
  | (name, node) :: rest => do
      let rel := relJoin current name
      let body ←
        match node with
        | FsNode.file c => some (h c)
        | FsNode.dir sub => walkSub rel sub
      let tail ← walkSorted h walkSub current rest
      some (rel ++ body ++ tail)

/-- `walkDirectory` (file_shared.go lines 54-89): sort the enumerated
entries by name and emit each entry's relative path and content (hash or
recursive walk).  `none` when the fuel bound is smaller than the tree
depth. -/
def walkDirectory (h : List Char → List Char) :
    Nat → List Char → List (List Char × FsNode) → Option (List Char)
  | 0, _, _ => none
  | fuel + 1, current, entries =>
      walkSorted h (fun rel sub => walkDirectory h fuel rel sub) current
        (sortEntries entries)

/-- `hashDirectory` (file_shared.go lines 46-52): the outer digest of the
walk's byte stream. -/
def hashDirectory (outer h : List Char → List Char) (fuel : Nat)
    (root : List (List Char × FsNode)) : Option (List Char) :=
  (walkDirectory h fuel [] root).map outer

lemma ltStr_irrefl : ∀ a : List Char, ltStr a a = false := by
  intro a
  induction a with
  | nil => rfl
  | cons x xs ih => simp [ltStr, lt_irrefl, ih]

lemma ltStr_asymm : ∀ {a b : List Char}, ltStr a b = true → ltStr b a = false := by
  intro a
  induction a with
  | nil =>
      intro b h
      cases b with
      | nil => simp [ltStr] at h
      | cons y ys => rfl
  | cons x xs ih =>
      intro b h
      cases b with
      | nil => simp [ltStr] at h
      | cons y ys =>
          simp only [ltStr] at h ⊢
          rcases lt_trichotomy x y with hxy | hxy | hxy
          · simp [hxy, lt_asymm hxy]
          · subst hxy
            simp only [lt_irrefl, if_false] at h ⊢
            exact ih h
          · simp [hxy, lt_asymm hxy] at h

lemma ltStr_eq_of_not_lt : ∀ {a b : List Char},
    ltStr a b = false → ltStr b a = false → a = b := by
  intro a
  induction a with
  | nil =>
      intro b h1 _
      cases b with
      | nil => rfl
      | cons y ys => simp [ltStr] at h1
  | cons x xs ih =>
      intro b h1 h2
      cases b with
      | nil => simp [ltStr] at h2
      | cons y ys =>
          simp only [ltStr] at h1 h2
          rcases lt_trichotomy x y with hxy | hxy | hxy
          · simp [hxy] at h1
          · subst hxy
            simp only [lt_irrefl, if_false] at h1 h2
            rw [ih h1 h2]
          · simp [hxy, lt_asymm hxy] at h2

lemma ltStr_trans : ∀ {a b c : List Char},
    ltStr a b = true → ltStr b c = true → ltStr a c = true := by
  intro a
  induction a with
  | nil =>
      intro b c h1 h2
      cases b with
      | nil => simp [ltStr] at h1
      | cons y ys =>
          cases c with
          | nil => simp [ltStr] at h2
          | cons z zs => rfl
  | cons x xs ih =>
      intro b c h1 h2
      cases b with
      | nil => simp [ltStr] at h1
      | cons y ys =>
          cases c with
          | nil => simp [ltStr] at h2
          | cons z zs =>
              simp only [ltStr] at h1 h2 ⊢
              rcases lt_trichotomy x y with hxy | hxy | hxy
              · rcases lt_trichotomy y z with hyz | hyz | hyz
                · simp [lt_trans hxy hyz]
                · subst hyz; simp [hxy]
                · simp [hyz, lt_asymm hyz] at h2
              · subst hxy
                rcases lt_trichotomy x z with hxz | hxz | hxz
                · simp [hxz]
                · subst hxz
                  simp only [lt_irrefl, if_false] at h1 h2 ⊢
                  exact ih h1 h2
                · simp [hxz, lt_asymm hxz] at h2
              · simp [hxy, lt_asymm hxy] at h1

lemma not_ltStr_trans : ∀ {a b c : List Char},
    ltStr b a = false → ltStr c b = false → ltStr c a = false := by
  intro a b c h1 h2
  by_cases hca : ltStr c a = true
  · by_cases hcb : ltStr b c = true
    · exact absurd (ltStr_trans hcb hca) (by simp [h1])
    · have hbc : b = c :=
        ltStr_eq_of_not_lt (by simpa using hcb) h2
      subst hbc
      exact absurd hca (by simp [h1])
  · simpa using hca

instance : IsTotal (List Char × FsNode) entryLe :=
  ⟨fun a b => by
    by_cases h : ltStr b.1 a.1 = true
    · exact Or.inr (ltStr_asymm h)
    · exact Or.inl (by simpa using h)⟩

instance : IsTrans (List Char × FsNode) entryLe :=
  ⟨fun _ _ _ h1 h2 => not_ltStr_trans h1 h2⟩

/-- The strict name order on entries, used only to show that sorted
permutations with distinct names coincide. -/
def entryLt (a b : List Char × FsNode) : Prop := ltStr a.1 b.1 = true

instance : IsAntisymm (List Char × FsNode) entryLt :=
  ⟨fun _ _ h1 h2 => absurd h2 (by simp [entryLt, ltStr_asymm h1])⟩

lemma sortEntries_perm (l : List (List Char × FsNode)) :
    (sortEntries l).Perm l :=
  List.perm_insertionSort entryLe l

lemma sortEntries_sorted_strict (l : List (List Char × FsNode))
    (hkeys : (l.map Prod.fst).Nodup) : (sortEntries l).Pairwise entryLt := by
  have hsorted : (sortEntries l).Pairwise entryLe :=
    List.sorted_insertionSort entryLe l
  have hkeys' : ((sortEntries l).map Prod.fst).Nodup :=
    ((sortEntries_perm l).map Prod.fst).nodup_iff.mpr hkeys
  have hne : (sortEntries l).Pairwise (fun a b => a.1 ≠ b.1) :=
    (List.pairwise_map.mp hkeys')
  refine (hsorted.and hne).imp ?_
  rintro a b ⟨hle, hab⟩
  by_cases h : ltStr a.1 b.1 = true
  · exact h
  · exact absurd (ltStr_eq_of_not_lt (by simpa using h) hle) hab

/-- Sorted permutations with distinct names are equal: enumeration order
does not matter. -/
lemma sortEntries_eq_of_perm {l1 l2 : List (List Char × FsNode)}
    (hperm : l1.Perm l2) (hkeys : (l1.map Prod.fst).Nodup) :
    sortEntries l1 = sortEntries l2 := by
  have hkeys2 : (l2.map Prod.fst).Nodup :=
    (hperm.map Prod.fst).nodup_iff.mp hkeys
  exact List.eq_of_perm_of_sorted
    (((sortEntries_perm l1).trans hperm).trans (sortEntries_perm l2).symm)
    (sortEntries_sorted_strict l1 hkeys)
    (sortEntries_sorted_strict l2 hkeys2)

/-- The body emitted for a single entry: the content hash for files, the
recursive walk for directories. -/
def entryBody (h : List Char → List Char)
    (walkSub : List Char → List (List Char × FsNode) → Option (List Char))
    (rel : List Char) : FsNode → Option (List Char)
  | FsNode.file c => some (h c)
  | FsNode.dir sub => walkSub rel sub

lemma walkSorted_cons (h : List Char → List Char)
    (w : List Char → List (List Char × FsNode) → Option (List Char))
    (cur : List Char) (name : List Char) (node : FsNode)
    (rest : List (List Char × FsNode)) :
    walkSorted h w cur ((name, node) :: rest) =
      (entryBody h w (relJoin cur name) node).bind (fun body =>
        (walkSorted h w cur rest).map (fun tail =>
          relJoin cur name ++ body ++ tail)) := by
  cases node with
  | file c =>
      cases htail : walkSorted h w cur rest <;>
        simp [walkSorted, entryBody, htail, Option.bind]
  | dir sub =>
      cases hb : w (relJoin cur name) sub with
      | none => simp [walkSorted, entryBody, hb, Option.bind]
      | some body =>
          cases htail : walkSorted h w cur rest <;>
            simp [walkSorted, entryBody, hb, htail, Option.bind]

lemma walkSorted_append (h : List Char → List Char)
    (w : List Char → List (List Char × FsNode) → Option (List Char))
    (cur : List Char) (l1 l2 : List (List Char × FsNode)) :
    walkSorted h w cur (l1 ++ l2) =
      (walkSorted h w cur l1).bind (fun A =>
        (walkSorted h w cur l2).map (fun B => A ++ B)) := by
  induction l1 with
  | nil =>
      cases h2 : walkSorted h w cur l2 <;> simp [walkSorted, h2, Option.bind]
  | cons e rest ih =>
      obtain ⟨name, node⟩ := e
      rw [List.cons_append, walkSorted_cons, walkSorted_cons, ih]
      cases hb : entryBody h w (relJoin cur name) node with
      | none => rfl
      | some body =>
          cases h1 : walkSorted h w cur rest with
          | none => simp [Option.bind]
          | some A =>
              cases h2 : walkSorted h w cur l2 with
              | none => simp [Option.bind]
              | some B => simp [Option.bind]

/-- Decomposition of a completed walk around a distinguished entry. -/
lemma walkSorted_decomp {h : List Char → List Char}
    {w : List Char → List (List Char × FsNode) → Option (List Char)}
    {cur : List Char} {pre post : List (List Char × FsNode)}
    {name : List Char} {node : FsNode} {T : List Char}
    (hT : walkSorted h w cur (pre ++ (name, node) :: post) = some T) :
    ∃ A body B, walkSorted h w cur pre = some A ∧
      entryBody h w (relJoin cur name) node = some body ∧
      walkSorted h w cur post = some B ∧
      T = A ++ (relJoin cur name ++ (body ++ B)) := by
  rw [walkSorted_append] at hT
  cases hpre : walkSorted h w cur pre with
  | none => rw [hpre] at hT; cases hT
  | some A =>
      rw [hpre] at hT
      simp only [Option.some_bind] at hT
      cases hrest : walkSorted h w cur ((name, node) :: post) with
      | none => rw [hrest] at hT; cases hT
      | some R =>
          rw [hrest] at hT
          simp only [Option.map_some', Option.some.injEq] at hT
          rw [walkSorted_cons] at hrest
          cases hb : entryBody h w (relJoin cur name) node with
          | none => rw [hb] at hrest; cases hrest
          | some body =>
              rw [hb] at hrest
              cases hpost : walkSorted h w cur post with
              | none => rw [hpost] at hrest; cases hrest
              | some B =>
                  rw [hpost] at hrest
                  simp only [Option.some_bind, Option.map_some',
                    Option.some.injEq] at hrest
                  refine ⟨A, body, B, rfl, rfl, rfl, ?_⟩
                  rw [← hT, ← hrest]
                  simp [List.append_assoc]

/-- Sorting commutes with a value replacement that leaves every name
unchanged (comparisons look only at names). -/
lemma sortEntries_map_keyfix (upd : List Char × FsNode → List Char × FsNode)
    (hkey : ∀ e, (upd e).1 = e.1) (l : List (List Char × FsNode)) :
    sortEntries (l.map upd) = (sortEntries l).map upd := by
  have hins : ∀ (a : List Char × FsNode) (s : List (List Char × FsNode)),
      List.orderedInsert entryLe (upd a) (s.map upd) =
        (List.orderedInsert entryLe a s).map upd := by
    intro a s
    induction s with
    | nil => rfl
    | cons b rest ih =>
        by_cases hle : entryLe a b
        · rw [List.map_cons, List.orderedInsert, List.orderedInsert,
            if_pos (by unfold entryLe at hle ⊢; rw [hkey, hkey]; exact hle),
            if_pos hle]
          rfl
        · rw [List.map_cons, List.orderedInsert, List.orderedInsert,
            if_neg (by unfold entryLe at hle ⊢; rw [hkey, hkey]; exact hle),
            if_neg hle, List.map_cons, ih]
  induction l with
  | nil => rfl
  | cons a rest ih =>
      unfold sortEntries at ih ⊢
      rw [List.map_cons, List.insertionSort, List.insertionSort, ih, hins]

lemma walkDirectory_succ (h : List Char → List Char) (fuel : Nat)
    (cur : List Char) (l : List (List Char × FsNode)) :
    walkDirectory h (fuel + 1) cur l =
      walkSorted h (fun rel sub => walkDirectory h fuel rel sub) cur
        (sortEntries l) := rfl

lemma map_id_of_mem {α : Type} {f : α → α} {l : List α}
    (h : ∀ x ∈ l, f x = x) : l.map f = l := by
  induction l with
  | nil => rfl
  | cons x xs ih =>
      rw [List.map_cons, h x (List.mem_cons_self x xs),
        ih (fun y hy => h y (List.mem_cons_of_mem x hy))]

lemma keys_ne_of_nodup {pre post : List (List Char × FsNode)}
    {name : List Char} {node : FsNode}
    (hkeys : ((pre ++ (name, node) :: post).map Prod.fst).Nodup) :
    (∀ e ∈ pre, e.1 ≠ name) ∧ (∀ e ∈ post, e.1 ≠ name) := by
  rw [List.map_append, List.map_cons, List.nodup_append] at hkeys
  constructor
  · intro e he hcontra
    exact hkeys.2.2 (List.mem_map_of_mem Prod.fst he)
      (by rw [hcontra]; exact List.mem_cons_self _ _)
  · intro e he hcontra
    have hc := List.nodup_cons.mp hkeys.2.1
    have hmem : name ∈ List.map Prod.fst post := by
      rw [← hcontra]
      exact List.mem_map_of_mem Prod.fst he
    exact hc.1 hmem

/-- Two trees differing in exactly one file.  `base`: at some level both
sorted entry lists coincide except for one file entry whose emission chunk
(relative path followed by content hash) differs — this covers a changed
content (same name, different hash of equal length) and a rename that keeps
the file's sorted position.  `deeper`: the difference sits inside a
subdirectory, at a level whose names are distinct. -/
inductive FileDiff (h : List Char → List Char) :
    List (List Char × FsNode) → List (List Char × FsNode) → Prop where
  | base (l1 l2 spre spost : List (List Char × FsNode))
      (n1 n2 c1 c2 : List Char)
      (h1 : sortEntries l1 = spre ++ (n1, FsNode.file c1) :: spost)
      (h2 : sortEntries l2 = spre ++ (n2, FsNode.file c2) :: spost)
      (hne : ∀ cur, relJoin cur n1 ++ h c1 ≠ relJoin cur n2 ++ h c2) :
      FileDiff h l1 l2
  | deeper (pre post : List (List Char × FsNode)) (name : List Char)
      (sub1 sub2 : List (List Char × FsNode))
      (hsub : FileDiff h sub1 sub2)
      (hkeys : ((pre ++ (name, FsNode.dir sub1) :: post).map Prod.fst).Nodup) :
      FileDiff h (pre ++ (name, FsNode.dir sub1) :: post)
        (pre ++ (name, FsNode.dir sub2) :: post)

/-- A completed walk separates trees related by `FileDiff`. -/
lemma FileDiff.walk_ne {h : List Char → List Char}
    {l1 l2 : List (List Char × FsNode)} (hd : FileDiff h l1 l2) :
    ∀ (fuel : Nat) (cur T1 T2 : List Char),
      walkDirectory h fuel cur l1 = some T1 →
      walkDirectory h fuel cur l2 = some T2 → T1 ≠ T2 := by
  induction hd with
  | base l1 l2 spre spost n1 n2 c1 c2 h1 h2 hne =>
      intro fuel cur T1 T2 hT1 hT2 heq
      cases fuel with
      | zero => cases hT1
      | succ fuel =>
          rw [walkDirectory_succ, h1] at hT1
          rw [walkDirectory_succ, h2] at hT2
          obtain ⟨A1, b1, B1, hA1, hb1, hB1, hT1e⟩ := walkSorted_decomp hT1
          obtain ⟨A2, b2, B2, hA2, hb2, hB2, hT2e⟩ := walkSorted_decomp hT2
          rw [hA1] at hA2
          rw [hB1] at hB2
          cases hA2
          cases hB2
          simp only [entryBody, Option.some.injEq] at hb1 hb2
          subst hb1
          subst hb2
          rw [hT1e, hT2e] at heq
          have h3 := List.append_cancel_left heq
          rw [← List.append_assoc, ← List.append_assoc] at h3
          have h4 := List.append_cancel_right h3
          exact hne cur h4
  | deeper pre post name sub1 sub2 hsub hkeys ih =>
      intro fuel cur T1 T2 hT1 hT2 heq
      cases fuel with
      | zero => cases hT1
      | succ fuel =>
          -- replacing the subtree behind the (unique) key `name`
          have hkeyfix : ∀ e : List Char × FsNode,
              ((fun e : List Char × FsNode =>
                if e.1 = name then (name, FsNode.dir sub2) else e) e).1 = e.1 := by
            intro e
            by_cases he : e.1 = name
            · simp [he]
            · simp [he]
          have hprekeys : ∀ e ∈ pre, e.1 ≠ name := (keys_ne_of_nodup hkeys).1
          have hpostkeys : ∀ e ∈ post, e.1 ≠ name := (keys_ne_of_nodup hkeys).2
          have hl2 :
              pre ++ (name, FsNode.dir sub2) :: post =
                (pre ++ (name, FsNode.dir sub1) :: post).map
                  (fun e => if e.1 = name then (name, FsNode.dir sub2) else e) := by
            rw [List.map_append, List.map_cons]
            rw [map_id_of_mem (fun e he => by simp [hprekeys e he]),
              map_id_of_mem (fun e he => by simp [hpostkeys e he])]
            simp
          rw [walkDirectory_succ] at hT1 hT2
          rw [hl2, sortEntries_map_keyfix _ hkeyfix] at hT2
          have hmem : (name, FsNode.dir sub1) ∈
              sortEntries (pre ++ (name, FsNode.dir sub1) :: post) :=
            (sortEntries_perm _).mem_iff.mpr
              (List.mem_append.mpr (Or.inr (List.mem_cons_self _ _)))
          obtain ⟨spre, spost, hsplit⟩ := List.append_of_mem hmem
          have hsortkeys :
              ((sortEntries (pre ++ (name, FsNode.dir sub1) :: post)).map
                Prod.fst).Nodup :=
            (((sortEntries_perm _).map Prod.fst).nodup_iff).mpr hkeys
          rw [hsplit] at hsortkeys
          have hsprekeys : ∀ e ∈ spre, e.1 ≠ name := (keys_ne_of_nodup hsortkeys).1
          have hspostkeys : ∀ e ∈ spost, e.1 ≠ name := (keys_ne_of_nodup hsortkeys).2
          have hsplit2 :
              (sortEntries (pre ++ (name, FsNode.dir sub1) :: post)).map
                  (fun e => if e.1 = name then (name, FsNode.dir sub2) else e) =
                spre ++ (name, FsNode.dir sub2) :: spost := by
            rw [hsplit, List.map_append, List.map_cons]
            rw [map_id_of_mem (fun e he => by simp [hsprekeys e he]),
              map_id_of_mem (fun e he => by simp [hspostkeys e he])]
            simp
          rw [hsplit] at hT1
          rw [hsplit2] at hT2
          obtain ⟨A1, b1, B1, hA1, hb1, hB1, hT1e⟩ := walkSorted_decomp hT1
          obtain ⟨A2, b2, B2, hA2, hb2, hB2, hT2e⟩ := walkSorted_decomp hT2
          rw [hA1] at hA2
          rw [hB1] at hB2
          cases hA2
          cases hB2
          simp only [entryBody] at hb1 hb2
          rw [hT1e, hT2e] at heq
          have h3 := List.append_cancel_left (List.append_cancel_left heq)
          have h4 := List.append_cancel_right h3
          exact ih fuel (relJoin cur name) b1 b2 hb1 hb2 h4

lemma relJoin_inj {cur n1 n2 : List Char} (h : relJoin cur n1 = relJoin cur n2) :
    n1 = n2 := by
  unfold relJoin at h
  by_cases hc : cur = []
  · simpa [hc] using h
  · rw [if_neg hc, if_neg hc] at h
    have := List.append_cancel_left h
    simpa using this

/-- C6 as amended: with the per-file hex digest abstracted as `h` and the
outer digest as an injective `outer` (collision resistance idealised), for
all directory trees whose walk completes within the fuel bound:
(1) hashing is deterministic; (2) the digest is independent of the
filesystem enumeration order (any permutation of a level's entries, names
being distinct as on a real filesystem, yields the same digest);
(3) changing one file's content (same sorted position, different content
hash) changes the digest; (4) renaming one file (same content) changes the
digest provided the rename keeps the file's position in the sorted sibling
order; (5) generally, any single-file difference in the sense of `FileDiff`
— which also covers (3) and (4) nested at any depth — changes the digest.
The position proviso in (4) is forced by the counterexample: a reordering
rename can collide with a crafted sibling directory name. -/
theorem hashDirectory_digest_properties
    (outer h : List Char → List Char) (houter : Function.Injective outer) :
    (∀ (fuel : Nat) (root : List (List Char × FsNode)),
        hashDirectory outer h fuel root = hashDirectory outer h fuel root) ∧
    (∀ (fuel : Nat) (l1 l2 : List (List Char × FsNode)),
        l1.Perm l2 → (l1.map Prod.fst).Nodup →
        hashDirectory outer h fuel l1 = hashDirectory outer h fuel l2) ∧
    (∀ (l1 l2 spre spost : List (List Char × FsNode)) (n c1 c2 : List Char),
        sortEntries l1 = spre ++ (n, FsNode.file c1) :: spost →
        sortEntries l2 = spre ++ (n, FsNode.file c2) :: spost →
        h c1 ≠ h c2 →
        ∀ (fuel : Nat) (T1 T2 : List Char),
          walkDirectory h fuel [] l1 = some T1 →
          walkDirectory h fuel [] l2 = some T2 →
          hashDirectory outer h fuel l1 ≠ hashDirectory outer h fuel l2) ∧
    (∀ (l1 l2 spre spost : List (List Char × FsNode)) (n1 n2 c : List Char),
        sortEntries l1 = spre ++ (n1, FsNode.file c) :: spost →
        sortEntries l2 = spre ++ (n2, FsNode.file c) :: spost →
        n1 ≠ n2 →
        ∀ (fuel : Nat) (T1 T2 : List Char),
          walkDirectory h fuel [] l1 = some T1 →
          walkDirectory h fuel [] l2 = some T2 →
          hashDirectory outer h fuel l1 ≠ hashDirectory outer h fuel l2) ∧
    (∀ l1 l2 : List (List Char × FsNode), FileDiff h l1 l2 →
        ∀ (fuel : Nat) (T1 T2 : List Char),
          walkDirectory h fuel [] l1 = some T1 →
          walkDirectory h fuel [] l2 = some T2 →
          hashDirectory outer h fuel l1 ≠ hashDirectory outer h fuel l2) := by
  have hdiff : ∀ (l1 l2 : List (List Char × FsNode)), FileDiff h l1 l2 →
      ∀ (fuel : Nat) (T1 T2 : List Char),
        walkDirectory h fuel [] l1 = some T1 →
        walkDirectory h fuel [] l2 = some T2 →
        hashDirectory outer h fuel l1 ≠ hashDirectory outer h fuel l2 := by
    intro l1 l2 hd fuel T1 T2 hw1 hw2 hdig
    unfold hashDirectory at hdig
    rw [hw1, hw2] at hdig
    simp only [Option.map_some', Option.some.injEq] at hdig
    exact hd.walk_ne fuel [] T1 T2 hw1 hw2 (houter hdig)
  refine ⟨fun _ _ => rfl, ?_, ?_, ?_, hdiff⟩
  · intro fuel l1 l2 hperm hkeys
    cases fuel with
    | zero => rfl
    | succ fuel =>
        unfold hashDirectory
        rw [walkDirectory_succ, walkDirectory_succ,
          sortEntries_eq_of_perm hperm hkeys]
  · intro l1 l2 spre spost n c1 c2 h1 h2 hcne fuel T1 T2 hw1 hw2
    exact hdiff l1 l2
      (FileDiff.base l1 l2 spre spost n n c1 c2 h1 h2
        (fun cur heq => hcne (List.append_cancel_left heq)))
      fuel T1 T2 hw1 hw2
  · intro l1 l2 spre spost n1 n2 c h1 h2 hn fuel T1 T2 hw1 hw2
    exact hdiff l1 l2
      (FileDiff.base l1 l2 spre spost n1 n2 c c h1 h2
        (fun cur heq => hn (relJoin_inj (List.append_cancel_right heq))))
      fuel T1 T2 hw1 hw2

/-- An injective stand-in for the hex SHA-256 content digest that maps the
content `"x"` to the 64-character string `bbb…b` (for real SHA-256 such a
preimage cannot be exhibited, but nothing rules it out). -/
def hColl : List Char → List Char :=
  fun c => if c = gs "x" then List.replicate 64 'b' else 'z' :: c

lemma hColl_injective : Function.Injective hColl := by
  intro a b hab
  unfold hColl at hab
  by_cases ha : a = gs "x" <;> by_cases hb : b = gs "x"
  · rw [ha, hb]
  · rw [if_pos ha, if_neg hb] at hab
    rw [List.replicate_succ] at hab
    simp at hab
  · rw [if_neg ha, if_pos hb] at hab
    rw [List.replicate_succ] at hab
    simp at hab
  · rw [if_neg ha, if_neg hb] at hab
    simpa using hab

/-- C6 counterexample: renaming a file does not always change the digest.
The tree holding the file `"ab"` (content hash `b^64`) next to an empty
directory named `"ab" ++ b^63` produces, after the rename of the file to
`"ba"`, exactly the same walk byte stream — the path/hash chunks have no
delimiters, so the sibling directory's name absorbs the difference:
`"ab" ++ b^64 ++ ("ab" ++ b^63)  =  ("ab" ++ b^63) ++ "ba" ++ b^64`.
Hence the digests coincide for every outer hash, although the only change
between the two trees is the file's name. -/
theorem hashDirectory_rename_collision_counterexample :
    walkDirectory hColl 2 []
        [(gs "ab", FsNode.file (gs "x")),
         (gs "ab" ++ List.replicate 63 'b', FsNode.dir [])] =
      walkDirectory hColl 2 []
        [(gs "ab" ++ List.replicate 63 'b', FsNode.dir []),
         (gs "ba", FsNode.file (gs "x"))] ∧
    (walkDirectory hColl 2 []
        [(gs "ab", FsNode.file (gs "x")),
         (gs "ab" ++ List.replicate 63 'b', FsNode.dir [])]).isSome = true ∧
    hashDirectory (fun d => d) hColl 2
        [(gs "ab", FsNode.file (gs "x")),
         (gs "ab" ++ List.replicate 63 'b', FsNode.dir [])] =
      hashDirectory (fun d => d) hColl 2
        [(gs "ab" ++ List.replicate 63 'b', FsNode.dir []),
         (gs "ba", FsNode.file (gs "x"))] ∧
    gs "ab" ≠ gs "ba" := by
  refine ⟨by decide, by decide, by decide, by decide⟩

/-- Witness for C6: a changed file content changes the digest. -/
theorem hashDirectory_digest_properties_witness :
    hashDirectory (fun d => d) hColl 1 [(gs "a", FsNode.file (gs "p"))] ≠
      hashDirectory (fun d => d) hColl 1 [(gs "a", FsNode.file (gs "q"))] :=
  (hashDirectory_digest_properties (fun d => d) hColl
      (fun _ _ hh => hh)).2.2.1
    [(gs "a", FsNode.file (gs "p"))] [(gs "a", FsNode.file (gs "q"))]
    [] [] (gs "a") (gs "p") (gs "q") rfl rfl (by decide)
    1 (gs "azp") (gs "azq") rfl rfl

end Multipass
